import Mathlib

/-!
Verification of the citation-audit pipeline against its specification.

Each Python component named in the claims is shallowly embedded as
executable Lean definitions, translated from the repository source:

* `scripts/50_adjudicate.py`      — ledger merge (`merge_fill`, `_dedupe_by_key`)
* `src/audit_lib/pdf_map.py`      — author/year normalization and PDF resolution
* `src/audit_lib/citations.py`    — citation parsing
* `src/audit_lib/retrieval.py`    — windowing and fuzzy top-k retrieval
* `scripts/40_retrieve_candidates.py` — per-claim evidence assembly
* `src/audit_lib/enrich/section_scoring.py` — section assignment

Strings are modelled as Lean `String`s (lists of Unicode scalar values,
matching Python's code-point view of `str`).  Pandas tables are modelled
as lists of records whose fields are the columns the scripts ensure to
exist (`_ensure_columns`), with the empty string standing for blank /
NaN-filled cells exactly as in the scripts (`astype(str).fillna("")`).
-/

namespace CitationAudit

/-! ## scripts/50_adjudicate.py — LedgerMerger

`BASE_COLS + DECISION_COLS + REWRITE_COLS` of the script.  A scaffold row
(`LRow`) carries all columns of `ALL_COLS`; an external decision row
(`RRow`) carries the columns `merge_fill` keeps from the right table:
the key columns `on_cols = [review_id, section, claim_id]`, the six
`DECISION_COLS`, and `source_pdf_path` (all ensured present and
string-typed by `_ensure_columns` / `astype(str).fillna("")`). -/

structure LRow where
  review_id : String
  section_col : String      -- column "section" ("section" is a Lean keyword)
  claim_id : String
  claim_text : String
  citation_author : String
  citation_year : String
  source_pdf_path : String
  verdict : String
  rationale : String
  evidence_span : String
  required_fix : String
  risk_flags : String
  page_anchor : String
  proposed_rewrite : String
  rewrite_notes : String
  rewrite_flags : String
deriving Repr, DecidableEq

structure RRow where
  review_id : String
  section_col : String
  claim_id : String
  verdict : String
  rationale : String
  evidence_span : String
  required_fix : String
  risk_flags : String
  page_anchor : String
  source_pdf_path : String
deriving Repr, DecidableEq

def defaultLRow : LRow :=
  ⟨"", "", "", "", "", "", "", "", "", "", "", "", "", "", "", ""⟩

/-- Merge key triple, `on_cols = ["review_id", "section", "claim_id"]`. -/
def LRow.key (l : LRow) : String × String × String :=
  (l.review_id, l.section_col, l.claim_id)

def RRow.key (r : RRow) : String × String × String :=
  (r.review_id, r.section_col, r.claim_id)

/-- `_dedupe_by_key`: `df.drop_duplicates(subset=key_cols, keep="first")` —
keep the first occurrence of each key triple. -/
def dedupeAux (seen : List (String × String × String)) :
    List RRow → List RRow
  | [] => []
  | r :: rs =>
    if r.key ∈ seen then dedupeAux seen rs
    else r :: dedupeAux (r.key :: seen) rs

def _dedupe_by_key (rs : List RRow) : List RRow := dedupeAux [] rs

/-- The unique right row matching a key after deduplication — the row a
scaffold row is joined with by `left.merge(r, how="left", on=on_cols)`
(`none` when the key is absent from the right table). -/
def lookupKey (rs : List RRow) (k : String × String × String) : Option RRow :=
  rs.find? (fun r => r.key == k)

/-- One column of `merged.loc[before_blank, c] = candidate[before_blank]`:
a blank (empty-string) left cell takes the candidate value, a non-blank
left cell is kept. -/
def fillField (l : String) (c : String) : String :=
  if l = "" then c else l

/-- `candidate = merged.get(f"{c}_r", "") ... .fillna("")`: the right-hand
value for a column, or `""` when the key had no match. -/
def candOf (o : Option RRow) (f : RRow → String) : String :=
  match o with
  | none => ""
  | some r => f r

/-- Apply `merge_fill`'s per-column fills to one scaffold row given its
joined right-hand row: the six `DECISION_COLS`, then the opportunistic
`source_pdf_path` fill. -/
def fillRow (l : LRow) (o : Option RRow) : LRow :=
  { l with
    verdict := fillField l.verdict (candOf o RRow.verdict)
    rationale := fillField l.rationale (candOf o RRow.rationale)
    evidence_span := fillField l.evidence_span (candOf o RRow.evidence_span)
    required_fix := fillField l.required_fix (candOf o RRow.required_fix)
    risk_flags := fillField l.risk_flags (candOf o RRow.risk_flags)
    page_anchor := fillField l.page_anchor (candOf o RRow.page_anchor)
    source_pdf_path := fillField l.source_pdf_path (candOf o RRow.source_pdf_path) }

/-- `merge_fill(left, right, on_cols, stage_name)` without the reporting
counts: an empty right table returns the left table unchanged; otherwise
the right table is deduplicated by key and each left row is filled from
its (unique) matching right row. -/
def merge_fill (left : List LRow) (right : List RRow) : List LRow :=
  if right.isEmpty then left
  else left.map (fun l => fillRow l (lookupKey (_dedupe_by_key right) l.key))

/-- The six `DECISION_COLS` of `50_adjudicate.py`. -/
inductive DecisionField
  | verdict | rationale | evidence_span | required_fix | risk_flags | page_anchor
deriving Repr, DecidableEq

def DecisionField.getL : DecisionField → LRow → String
  | .verdict => LRow.verdict
  | .rationale => LRow.rationale
  | .evidence_span => LRow.evidence_span
  | .required_fix => LRow.required_fix
  | .risk_flags => LRow.risk_flags
  | .page_anchor => LRow.page_anchor

/-! ## Character-level primitives

Python string/regex primitives, modelled on the ASCII fragment: `\w`,
`\s`, `\b`, `[A-Z]`, `str.lower()` etc. are modelled for ASCII code
points (Python's defaults additionally cover non-ASCII Unicode
categories; every concrete input appearing in a theorem below is
ASCII). -/

def isAsciiUpper (c : Char) : Bool := 65 ≤ c.toNat && c.toNat ≤ 90

def isAsciiLower (c : Char) : Bool := 97 ≤ c.toNat && c.toNat ≤ 122

def isAsciiLetter (c : Char) : Bool := isAsciiUpper c || isAsciiLower c

def isDigitCh (c : Char) : Bool := 48 ≤ c.toNat && c.toNat ≤ 57

/-- Python `\s` (ASCII fragment): space, tab, newline, carriage return,
form feed, vertical tab. -/
def isWsCh (c : Char) : Bool :=
  c == ' ' || c == '\t' || c == '\n' || c == '\r' || c == '\x0b' || c == '\x0c'

/-- Python `\w` (ASCII fragment): letters, digits, underscore. -/
def isWordCh (c : Char) : Bool := isAsciiLetter c || isDigitCh c || c == '_'

/-- Python `str.lower()` (ASCII fragment). -/
def lowerCh (c : Char) : Char :=
  if isAsciiUpper c then Char.ofNat (c.toNat + 32) else c

/-- Regex `\b` between a just-consumed character `last` and the remaining
input `rest`: a word boundary holds iff exactly one side is a word
character (end of input counts as non-word). -/
def bdry (last : Char) (rest : List Char) : Bool :=
  isWordCh last != (match rest with | [] => false | c :: _ => isWordCh c)

/-- Python `str.strip()` (ASCII whitespace). -/
def stripWs (cs : List Char) : List Char :=
  ((cs.dropWhile isWsCh).reverse.dropWhile isWsCh).reverse

/-! ## src/audit_lib/pdf_map.py — AuthorYearResolver -/

/-- `_normalize_quotes_dashes`: map curly quotes and en/em-dash/minus to
ASCII (each `str.replace` is a single-character substitution). -/
def normQDChar (c : Char) : Char :=
  if c == '‘' || c == '’' then '\''
  else if c == '“' || c == '”' then '"'
  else if c == '–' || c == '—' || c == '−' then '-'
  else c

/-- NFKD base letter of the common Latin-1 precomposed letters (the
decomposable ones decompose to base letter + combining mark; letters
without a decomposition, e.g. `ø`, `ß`, `æ`, are left unchanged). -/
def nfkdBase (c : Char) : Char :=
  let n := c.toNat
  if 0xC0 ≤ n && n ≤ 0xC5 then 'A'
  else if n == 0xC7 then 'C'
  else if 0xC8 ≤ n && n ≤ 0xCB then 'E'
  else if 0xCC ≤ n && n ≤ 0xCF then 'I'
  else if n == 0xD1 then 'N'
  else if 0xD2 ≤ n && n ≤ 0xD6 then 'O'
  else if 0xD9 ≤ n && n ≤ 0xDC then 'U'
  else if n == 0xDD then 'Y'
  else if 0xE0 ≤ n && n ≤ 0xE5 then 'a'
  else if n == 0xE7 then 'c'
  else if 0xE8 ≤ n && n ≤ 0xEB then 'e'
  else if 0xEC ≤ n && n ≤ 0xEF then 'i'
  else if n == 0xF1 then 'n'
  else if 0xF2 ≤ n && n ≤ 0xF6 then 'o'
  else if 0xF9 ≤ n && n ≤ 0xFC then 'u'
  else if n == 0xFD || n == 0xFF then 'y'
  else c

/-- `_strip_diacritics`: `unicodedata.normalize("NFKD", s)` followed by
dropping combining characters.  Modelled as: decompose the common
Latin-1 precomposed letters to their base letter (`nfkdBase`, which on
ASCII is the identity, as NFKD is) and drop characters of the Combining
Diacritical Marks block (U+0300–U+036F). -/
def _strip_diacritics (cs : List Char) : List Char :=
  (cs.map nfkdBase).filter (fun c => !(0x300 ≤ c.toNat && c.toNat ≤ 0x36F))

/-- The `\s*al\.?\b` tail of the et-al pattern: skip whitespace, match
`al`, then the greedy optional dot and the trailing `\b` (with-dot tried
first, falling back as the regex engine does). -/
def etAlTail (r : List Char) : Option (Bool × List Char) :=
  match r.dropWhile isWsCh with
  | a :: l :: r2 =>
    if lowerCh a == 'a' && lowerCh l == 'l' then
      match r2 with
      | '.' :: r3 =>
        if bdry '.' r3 then some (false, r3)
        else if bdry 'l' ('.' :: r3) then some (true, '.' :: r3)
        else none
      | _ => if bdry 'l' r2 then some (true, r2) else none
    else none
  | _ => none

/-- One attempt of `\bet\.?\s*al\.?\b` (IGNORECASE) at the head of the
list, the `Bool` telling whether the character before it was a word
character (for the leading `\b`).  On success returns the wordness of
the last matched character (for continued scanning) and the rest of the
input. -/
def matchEtAl : Bool → List Char → Option (Bool × List Char)
  | true, _ => none   -- 'e' is a word character: `\b` needs a non-word left side
  | false, c1 :: c2 :: rest =>
    if lowerCh c1 == 'e' && lowerCh c2 == 't' then
      match rest with
      | '.' :: r => (etAlTail r).orElse (fun _ => etAlTail rest)
      | _ => etAlTail rest
    else none
  | false, _ => none

/-- Scanner for `re.sub(r"\bet\.?\s*al\.?\b", "", s, flags=re.IGNORECASE)`:
leftmost non-overlapping matches are removed.  `fuel` only bounds the
recursion; every step consumes at least one character, so
`fuel = length + 1` makes the bound unreachable. -/
def subEtAlAux (fuel : Nat) (prevWord : Bool) (cs : List Char) : List Char :=
  match fuel with
  | 0 => cs
  | fuel + 1 =>
    match cs with
    | [] => []
    | c :: cs' =>
      match matchEtAl prevWord (c :: cs') with
      | some (w, rest) => subEtAlAux fuel w rest
      | none => c :: subEtAlAux fuel (isWordCh c) cs'

def subEtAl (cs : List Char) : List Char := subEtAlAux (cs.length + 1) false cs

/-- `re.sub(r"[\(\)\[\]\{\}<>]", " ", s)`. -/
def brktToSpace (c : Char) : Char :=
  if c == '(' || c == ')' || c == '[' || c == ']' ||
     c == '\x7b' || c == '\x7d' || c == '<' || c == '>' then ' ' else c

/-- `re.sub(r"\s+", " ", s)`: collapse each maximal whitespace run to a
single space. -/
def collapseWs (fuel : Nat) (cs : List Char) : List Char :=
  match fuel with
  | 0 => cs
  | fuel + 1 =>
    match cs with
    | [] => []
    | c :: cs' =>
      if isWsCh c then ' ' :: collapseWs fuel (cs'.dropWhile isWsCh)
      else c :: collapseWs fuel cs'

/-- One attempt of the separator alternation `,|\band\b|&` (IGNORECASE)
at the head of `cs` (used by `re.split(..., maxsplit=1)`). -/
def matchSepHere (prevWord : Bool) : List Char → Bool
  | c :: rest =>
    if c == ',' || c == '&' then true
    else if prevWord then false   -- 'a' is a word character: `\b` fails
    else
      match c :: rest with
      | a :: n :: d :: r =>
        lowerCh a == 'a' && lowerCh n == 'n' && lowerCh d == 'd' && bdry 'd' r
      | _ => false
  | [] => false

/-- `re.split(r",|\band\b|&", s, maxsplit=1, flags=re.IGNORECASE)[0]`:
the prefix before the leftmost separator (the whole string if none). -/
def splitFirstSep (prevWord : Bool) : List Char → List Char
  | [] => []
  | c :: cs =>
    if matchSepHere prevWord (c :: cs) then []
    else c :: splitFirstSep (isWordCh c) cs

def isApos (c : Char) : Bool := c == '\'' || c == '’'

/-- `re.sub(r"([A-Za-z\-])(?:['’]s)\b", r"\1", first)`: drop a possessive
`'s` after a letter or hyphen when a word boundary follows. -/
def subPoss : List Char → List Char
  | c :: a :: s :: rest =>
    if (isAsciiLetter c || c == '-') && isApos a && s == 's' && bdry 's' rest then
      c :: subPoss rest
    else
      c :: subPoss (a :: s :: rest)
  | other => other

/-- `re.sub(r"['’]$", "", first)`: drop a trailing apostrophe (`$` also
matches just before a final newline). -/
def subTrailApos (cs : List Char) : List Char :=
  match cs.reverse with
  | c :: rest =>
    if isApos c then rest.reverse
    else if c == '\n' then
      match rest with
      | a :: rest2 => if isApos a then ('\n' :: rest2).reverse else cs
      | [] => cs
    else cs
  | [] => cs

/-- `[t for t in re.split(r"\s+", first) if t]`: whitespace-separated
tokens, empties dropped. -/
def splitWsAux (cur : List Char) : List Char → List (List Char)
  | [] => if cur.isEmpty then [] else [cur.reverse]
  | c :: cs =>
    if isWsCh c then
      if cur.isEmpty then splitWsAux [] cs else cur.reverse :: splitWsAux [] cs
    else splitWsAux (c :: cur) cs

def splitWsTokens (cs : List Char) : List (List Char) := splitWsAux [] cs

/-- Collapse each maximal run of underscores to a single underscore
(`re.sub(r"_+", "_", key)`). -/
def collapseUnd (fuel : Nat) (cs : List Char) : List Char :=
  match fuel with
  | 0 => cs
  | fuel + 1 =>
    match cs with
    | [] => []
    | c :: cs' =>
      if c == '_' then '_' :: collapseUnd fuel (cs'.dropWhile (· == '_'))
      else c :: collapseUnd fuel cs'

/-- `key.strip("_")`. -/
def stripUnd (cs : List Char) : List Char :=
  ((cs.dropWhile (· == '_')).reverse.dropWhile (· == '_')).reverse

/-- The particle set of `normalize_lead_surname`. -/
def particleParts : List (List Char) :=
  ["van".data, "von".data, "de".data, "den".data, "der".data,
   "del".data, "la".data, "le".data, "da".data]

/-- `"_".join(parts)`. -/
def joinUnd : List (List Char) → List Char
  | [] => []
  | [t] => t
  | t :: ts => t ++ '_' :: joinUnd ts

/-- `"_".join(t.lower().replace("-", "_") for t in key_tokens if t)`
followed by underscore collapsing and stripping. -/
def joinKey (keyToks : List (List Char)) : List Char :=
  let mapped := (keyToks.filter (fun t => !t.isEmpty)).map
    (fun t => (t.map lowerCh).map (fun c => if c == '-' then '_' else c))
  let joined := joinUnd mapped
  stripUnd (collapseUnd (joined.length + 1) joined)

/-- The cleaning prefix of `normalize_lead_surname`: quote/dash
normalization, diacritic stripping and `strip()`, `et al.` removal,
bracket removal, and whitespace collapsing. -/
def normClean (name : String) : List Char :=
  let s3 := (subEtAl (stripWs (_strip_diacritics (name.data.map normQDChar)))).map
    brktToSpace
  stripWs (collapseWs (s3.length + 1) s3)

/-- The token list of `normalize_lead_surname`: the split before the
first `,`/`and`/`&` separator, possessive and trailing-apostrophe
removal, whitespace tokenization, and the `[^A-Za-z\-]` token filter
with empty tokens dropped. -/
def normTokens (name : String) : List (List Char) :=
  ((splitWsTokens (subTrailApos (subPoss
      (stripWs (splitFirstSep false (normClean name)))))).map
    (fun t => t.filter (fun c => isAsciiLetter c || c == '-'))).filter
    (fun t => !t.isEmpty)

/-- `normalize_lead_surname`: normalize a citation/institution name to a
lead-surname key (translated step by step from the source). -/
def normalize_lead_surname (name : String) : String :=
  if name = "" then ""
  else
    match normTokens name with
    | [] => ""
    | t0 :: rest =>
      let keyToks :=
        if (t0.map lowerCh) ∈ particleParts then
          t0 :: (match rest with
            | [] => []
            | t1 :: rest2 =>
              t1 :: (if !rest2.isEmpty &&
                        ((t1.map lowerCh) ∈ ["den".data, "der".data, "de".data]) then
                       [rest2.headD []]
                     else []))
        else
          t0 :: (match rest with
            | [] => []
            | t1 :: _ => [t1])
      String.mk (joinKey keyToks)

/-- Collapse each maximal run of characters outside `[A-Za-z_]` to a
single underscore (`re.sub(r"[^A-Za-z_]+", "_", s)`). -/
def collapseNonLetter (fuel : Nat) (cs : List Char) : List Char :=
  match fuel with
  | 0 => cs
  | fuel + 1 =>
    match cs with
    | [] => []
    | c :: cs' =>
      if !(isAsciiLetter c || c == '_') then
        '_' :: collapseNonLetter fuel (cs'.dropWhile (fun x => !(isAsciiLetter x || x == '_')))
      else c :: collapseNonLetter fuel cs'

/-- `_norm_file_surname`: normalize the author-like prefix captured from a
filename. -/
def _norm_file_surname (raw : String) : String :=
  let s := (stripWs (_strip_diacritics raw.data)).map normQDChar
  let s := s.map (fun c => if c == ' ' || c == '-' then '_' else c)
  let s := collapseNonLetter (s.length + 1) s
  let s := collapseUnd (s.length + 1) s
  String.mk (stripUnd (s.map lowerCh))

/-- Group-1 character class of `_BASENAME_RE`: `[A-Za-z _-]`. -/
def isG1Char (c : Char) : Bool :=
  isAsciiLetter c || c == ' ' || c == '_' || c == '-'

/-- `.*\.pdf$` (IGNORECASE) on the region after the year: some prefix
free of newlines (`.` does not match `\n`), then a literal `.pdf` at the
end of the string (`$` also matches just before a final newline). -/
def tailPdf (r : List Char) : Bool :=
  let rr := match r.reverse with
    | '\n' :: t => t
    | t => t
  match rr with
  | f :: d :: p :: dot :: m =>
    lowerCh f == 'f' && lowerCh d == 'd' && lowerCh p == 'p' && dot == '.' &&
      m.all (· != '\n')
  | _ => false

/-- Try `_(\d{4})\b.*\.pdf$` at offset `j` of `s`; returns the year. -/
def tryYearAt (s : List Char) (j : Nat) : Option Int :=
  match s.drop j with
  | '_' :: d1 :: d2 :: d3 :: d4 :: rest =>
    if isDigitCh d1 && isDigitCh d2 && isDigitCh d3 && isDigitCh d4 &&
       bdry d4 rest && tailPdf rest then
      some (((((d1.toNat - 48) * 10 + (d2.toNat - 48)) * 10 + (d3.toNat - 48)) * 10
              + (d4.toNat - 48) : Nat) : Int)
    else none
  | _ => none

/-- `_BASENAME_RE.match(name)` for
`^([A-Za-z][A-Za-z _-]*)_(\d{4})\b.*\.pdf$` (IGNORECASE): the greedy
group 1 takes the longest prefix of `[A-Za-z _-]` characters (first one
a letter) such that the rest of the pattern still matches, i.e. the
largest split point `j` accepted by `tryYearAt`. -/
def basenameMatch (name : String) : Option (String × Int) :=
  match name.data with
  | [] => none
  | c :: cs =>
    if isAsciiLetter c then
      let s := c :: cs
      let run := (s.takeWhile isG1Char).length
      (List.range run).reverse.findSome? (fun j =>
        if 1 ≤ j then (tryYearAt s j).map (fun y => (String.mk (s.take j), y))
        else none)
    else none

/-- One step of the `build_pdf_index` scan: skip names the basename
regex rejects, otherwise append the name to the candidate list of its
key `(_norm_file_surname(group1), int(year))`
(`index.setdefault(key, []).append(p)`). -/
def bpiStep (idx : String × Int → List String) (name : String) :
    String × Int → List String :=
  match basenameMatch name with
  | none => idx
  | some (g1, y) =>
    fun q => if q = (_norm_file_surname g1, y) then idx q ++ [name] else idx q

/-- `build_pdf_index`: scan the (sorted) basenames of `pdf_dir`,
accumulating `bpiStep` over an empty index.  The mapping is modelled as
a total function defaulting to `[]`, matching `index.get(key, [])` on
the consumer side. -/
def build_pdf_index (files : List String) : String × Int → List String :=
  files.foldl bpiStep (fun _ => [])

def lowerStr (s : String) : String := String.mk (s.data.map lowerCh)

/-- Code-point lexicographic comparison of two character lists — the
order Python uses to compare `str` values (and the order of Lean's
`String` instance, see `lexLt_iff`). -/
def lexLt : List Char → List Char → Bool
  | [], [] => false
  | [], _ :: _ => true
  | _ :: _, [] => false
  | a :: as, b :: bs =>
    if a < b then true else if b < a then false else lexLt as bs

/-- The sort key of `_tie_break`'s fallback, `(len(x.name), x.name.lower())`,
as a strict comparison. -/
def tbKeyLt (a b : String) : Bool :=
  a.length < b.length ||
    (a.length == b.length && lexLt (lowerStr a).data (lowerStr b).data)

/-- First element of Python's stable `sorted(candidates, key=...)`:
the earliest element with minimal key (the fold replaces the current
best only on strictly smaller keys, so ties keep the earlier element,
exactly as a stable sort does). -/
def tbMinAux (best : String) : List String → String
  | [] => best
  | c :: cs => tbMinAux (if tbKeyLt c best then c else best) cs

/-- `_tie_break`: prefer the literal `<surname_key>_<year>.pdf`
(case-insensitively); otherwise the head of the stable sort by
`(len(name), name.lower())`.  (The source indexes `sorted(...)[0]` and is
only called with a non-empty candidate list; `""` stands for the
unreachable empty case.) -/
def _tie_break (surname_key : String) (year : Int) (candidates : List String) : String :=
  let exact := surname_key ++ "_" ++ toString year ++ ".pdf"
  match candidates.find? (fun p => lowerStr p == lowerStr exact) with
  | some p => p
  | none =>
    match candidates with
    | [] => ""
    | c :: cs => tbMinAux c cs

/-- `re.split(r";", s)`: split at every semicolon. -/
def splitOnSemiAux (cur : List Char) : List Char → List (List Char)
  | [] => [cur.reverse]
  | c :: cs =>
    if c == ';' then cur.reverse :: splitOnSemiAux [] cs
    else splitOnSemiAux (c :: cur) cs

/-- Index of the first occurrence of `pat` as a substring (`y in p` /
`p.split(y, 1)`). -/
def findSubIdx (pat : List Char) : List Char → Option Nat
  | [] => if pat.isEmpty then some 0 else none
  | c :: cs =>
    if pat.isPrefixOf (c :: cs) then some 0
    else (findSubIdx pat cs).map (· + 1)

/-- `_author_key_from_text_fragment`: split the citation text on
semicolons, find the segment containing the requested year, and
normalize its author span (the prefix before the year, with trailing
commas/whitespace removed). -/
def _author_key_from_text_fragment (citation_text : String) (year : Int) : String :=
  if citation_text = "" || year = 0 then ""
  else
    let s := (_strip_diacritics citation_text.data).map normQDChar
    let parts := ((splitOnSemiAux [] s).map stripWs).filter (fun p => !p.isEmpty)
    let y := (toString year).data
    let search := if parts.isEmpty then [s] else parts
    (search.findSome? (fun p =>
      match findSubIdx y p with
      | some i =>
        let head := (p.take i).reverse.dropWhile (fun c => c == ',' || isWsCh c)
        some (normalize_lead_surname (String.mk head.reverse))
      | none => none)).getD ""

structure ResolveResult where
  path : Option String
  candidates : List String
  reason : Option String
deriving Repr, DecidableEq

/-- The candidate list of `resolve_source_pdf`: the exact
`(surname_key, year)` lookup, re-assigned from the alternate-key lookup
when it is empty and a usable alternate key is derived from the
citation text.  Both lookups are at the requested `year`. -/
def resolveCandidates (surname_key : String) (year : Int)
    (index : String × Int → List String) (citation_text : Option String) :
    List String :=
  let candidates := index (surname_key, year)
  if candidates.isEmpty && (citation_text.getD "") ≠ "" then
    let alt_key := _author_key_from_text_fragment (citation_text.getD "") year
    if alt_key ≠ "" && alt_key ≠ surname_key then index (alt_key, year)
    else candidates
  else candidates

/-- `resolve_source_pdf`: exact `(surname_key, year)` lookup, the
citation-text alternate-key retry when there are no candidates, then
`no_match` / unique / deterministic tie-break. -/
def resolve_source_pdf (author : String) (year : Int)
    (index : String × Int → List String)
    (citation_text : Option String := none) : ResolveResult :=
  let surname_key := normalize_lead_surname author
  if surname_key = "" || year = 0 then
    ⟨none, [], some "no_match"⟩
  else
    match resolveCandidates surname_key year index citation_text with
    | [] => ⟨none, [], some "no_match"⟩
    | [p] => ⟨some p, [p], none⟩
    | p :: q :: rest =>
      ⟨some (_tie_break surname_key year (p :: q :: rest)), p :: q :: rest,
        some "ambiguous"⟩

/-! ## src/audit_lib/citations.py — CitationParser

The five module-level regexes are modelled as dedicated scanners with
Python `re` semantics (leftmost match, greedy/lazy quantifiers with
backtracking, non-overlapping `finditer`/`findall`).  `fuel` arguments
only bound recursion; every scanning step consumes at least one
character, so `length + 1` makes the bound unreachable. -/

/-- `PAREN_BLOCK_RE = \(([^()]+)\)`: balanced, non-nested parenthetical
blocks with their spans (`finditer`; spans are code-point indices, as
Python string indices are). -/
def parenBlocksAux (fuel : Nat) (pos : Nat) (cs : List Char) :
    List (List Char × (Nat × Nat)) :=
  match fuel with
  | 0 => []
  | fuel + 1 =>
    match cs with
    | [] => []
    | c :: rest =>
      if c == '(' then
        let body := rest.takeWhile (fun x => !(x == '(' || x == ')'))
        match rest.drop body.length with
        | ')' :: rest2 =>
          if body.isEmpty then parenBlocksAux fuel (pos + 1) rest
          else
            (body, (pos, pos + body.length + 2)) ::
              parenBlocksAux fuel (pos + body.length + 2) rest2
        | _ => parenBlocksAux fuel (pos + 1) rest
      else parenBlocksAux fuel (pos + 1) rest

def parenBlocks (cs : List Char) : List (List Char × (Nat × Nat)) :=
  parenBlocksAux (cs.length + 1) 0 cs

/-- Case-insensitive literal match; returns the rest of the input. -/
def matchCI : List Char → List Char → Option (List Char)
  | [], rest => some rest
  | l :: ls, c :: rest => if lowerCh c == l then matchCI ls rest else none
  | _ :: _, [] => none

/-- `\s*,\s*(\d{4}[a-z]?)` — the year tail shared by `PAIR_RE` and
`AS_CITED_IN_RE`.  `ci` tells whether the regex carries `re.IGNORECASE`
(then `[a-z]` also matches uppercase).  Returns the consumed length and
the year group. -/
def pairTail (ci : Bool) (cs : List Char) : Option (Nat × List Char) :=
  let ws1 := cs.takeWhile isWsCh
  match cs.drop ws1.length with
  | ',' :: r2 =>
    let ws2 := r2.takeWhile isWsCh
    match r2.drop ws2.length with
    | d1 :: d2 :: d3 :: d4 :: r4 =>
      if isDigitCh d1 && isDigitCh d2 && isDigitCh d3 && isDigitCh d4 then
        match r4 with
        | a :: _ =>
          if (if ci then isAsciiLetter a else isAsciiLower a) then
            some (ws1.length + 1 + ws2.length + 5, [d1, d2, d3, d4, a])
          else some (ws1.length + 1 + ws2.length + 4, [d1, d2, d3, d4])
        | [] => some (ws1.length + 1 + ws2.length + 4, [d1, d2, d3, d4])
      else none
    | _ => none
  | _ => none

/-- The lazy author group `[^,;()]+?` of `PAIR_RE` / `AS_CITED_IN_RE`:
extend one character at a time, trying the year tail after each
extension (shortest match wins, as `+?` does).  `acc` is the group so
far, reversed. -/
def lazyGroup1 (ci : Bool) (fuel : Nat) (acc : List Char) (cs : List Char) :
    Option (List Char × Nat × List Char) :=
  match fuel with
  | 0 => none
  | fuel + 1 =>
    match pairTail ci cs with
    | some (n, year) => some (acc.reverse, acc.length + n, year)
    | none =>
      match cs with
      | c :: rest =>
        if c == ',' || c == ';' || c == '(' || c == ')' then none
        else lazyGroup1 ci fuel (c :: acc) rest
      | [] => none

def litAsCitedIn : List Char := "as cited in".data

/-- One attempt of `AS_CITED_IN_RE =
\bas cited in\s+([A-Z][^,;()]+?)\s*,\s*(\d{4}[a-z]?)` (IGNORECASE) at
the head of the input; returns the match length and the two groups. -/
def matchAsCitedAt (prev : Bool) (cs : List Char) :
    Option (Nat × List Char × List Char) :=
  if prev then none   -- 'a' is a word character: `\b` needs a non-word left side
  else
    match matchCI litAsCitedIn cs with
    | none => none
    | some rest =>
      let ws := rest.takeWhile isWsCh
      if ws.isEmpty then none
      else
        match rest.drop ws.length with
        | c1 :: r2 =>
          if isAsciiLetter c1 then   -- `[A-Z]` under IGNORECASE
            match r2 with
            | c2 :: r3 =>
              if c2 == ',' || c2 == ';' || c2 == '(' || c2 == ')' then none
              else
                match lazyGroup1 true (r3.length + 1) [c2, c1] r3 with
                | some (g1, glen, year) =>
                  some (litAsCitedIn.length + ws.length + glen, g1, year)
                | none => none
            | [] => none
          else none
        | [] => none

def asCitedSearchAux (fuel : Nat) (prev : Bool) (cs : List Char) :
    Option (List Char × List Char × List Char) :=
  match fuel with
  | 0 => none
  | fuel + 1 =>
    match matchAsCitedAt prev cs with
    | some (n, g1, g2) => some (cs.take n, g1, g2)
    | none =>
      match cs with
      | [] => none
      | c :: rest => asCitedSearchAux fuel (isWordCh c) rest

/-- `AS_CITED_IN_RE.search`: leftmost match; returns
(whole match, author group, year group). -/
def asCitedSearch (cs : List Char) : Option (List Char × List Char × List Char) :=
  asCitedSearchAux (cs.length + 1) false cs

/-- One attempt of `PAGE_RE = \bpp?\.\s*(\d+(?:\s*[-–]\s*\d+)?)`
(IGNORECASE) at the head of the input; returns group 1. -/
def matchPageAt (prev : Bool) (cs : List Char) : Option (List Char) :=
  if prev then none   -- 'p' is a word character
  else
    match cs with
    | p1 :: r1 =>
      if lowerCh p1 == 'p' then
        let tryDot (r : List Char) : Option (List Char) :=
          match r with
          | '.' :: r2 =>
            let ws := r2.takeWhile isWsCh
            let r3 := r2.drop ws.length
            let ds := r3.takeWhile isDigitCh
            if ds.isEmpty then none
            else
              let r4 := r3.drop ds.length
              let ws2 := r4.takeWhile isWsCh
              match r4.drop ws2.length with
              | d :: r6 =>
                if d == '-' || d == '–' then
                  let ws3 := r6.takeWhile isWsCh
                  let ds2 := (r6.drop ws3.length).takeWhile isDigitCh
                  if ds2.isEmpty then some ds
                  else some (ds ++ ws2 ++ d :: (ws3 ++ ds2))
                else some ds
              | [] => some ds
          | _ => none
        match r1 with
        | p2 :: r2 =>
          if lowerCh p2 == 'p' then (tryDot r2).orElse (fun _ => tryDot r1)
          else tryDot r1
        | [] => none
      else none
    | [] => none

def pageSearchAux (fuel : Nat) (prev : Bool) (cs : List Char) :
    Option (List Char) :=
  match fuel with
  | 0 => none
  | fuel + 1 =>
    match matchPageAt prev cs with
    | some g => some g
    | none =>
      match cs with
      | [] => none
      | c :: rest => pageSearchAux fuel (isWordCh c) rest

def pageSearch (cs : List Char) : Option (List Char) :=
  pageSearchAux (cs.length + 1) false cs

/-- One attempt of `PAIR_RE = ([A-Z][^,;()]+?)\s*,\s*(\d{4}[a-z]?)`
(case-sensitive, no boundary assertions). -/
def matchPairAt (cs : List Char) : Option (Nat × List Char × List Char) :=
  match cs with
  | c1 :: r2 =>
    if isAsciiUpper c1 then
      match r2 with
      | c2 :: r3 =>
        if c2 == ',' || c2 == ';' || c2 == '(' || c2 == ')' then none
        else
          match lazyGroup1 false (r3.length + 1) [c2, c1] r3 with
          | some (g1, glen, year) => some (1 + glen, g1, year)
          | none => none
      | [] => none
    else none
  | [] => none

/-- `PAIR_RE.findall`: leftmost, non-overlapping matches. -/
def pairFindAllAux (fuel : Nat) (cs : List Char) :
    List (List Char × List Char) :=
  match fuel with
  | 0 => []
  | fuel + 1 =>
    match cs with
    | [] => []
    | c :: rest =>
      match matchPairAt (c :: rest) with
      | some (n, g1, y) => (g1, y) :: pairFindAllAux fuel ((c :: rest).drop n)
      | none => pairFindAllAux fuel rest

def pairFindAll (cs : List Char) : List (List Char × List Char) :=
  pairFindAllAux (cs.length + 1) cs

/-- The author-name character class `[A-Za-z'’\-]` of `NARR_RE`. -/
def isNameCh (c : Char) : Bool :=
  isAsciiLetter c || c == '\'' || c == '’' || c == '-'

/-- The `\s*\(\s*(\d{4}[a-z]?)\s*\)` tail of `NARR_RE`; returns the
consumed length and the year group. -/
def narrTail (r : List Char) : Option (Nat × List Char) :=
  let ws := r.takeWhile isWsCh
  match r.drop ws.length with
  | '(' :: r2 =>
    let ws2 := r2.takeWhile isWsCh
    match r2.drop ws2.length with
    | d1 :: d2 :: d3 :: d4 :: r4 =>
      if isDigitCh d1 && isDigitCh d2 && isDigitCh d3 && isDigitCh d4 then
        let withSuffix : Option (Nat × List Char) :=
          match r4 with
          | a :: r5 =>
            if isAsciiLower a then   -- `[a-z]`, case-sensitive
              let ws3 := r5.takeWhile isWsCh
              match r5.drop ws3.length with
              | ')' :: _ =>
                some (ws.length + 1 + ws2.length + 5 + ws3.length + 1,
                  [d1, d2, d3, d4, a])
              | _ => none
            else none
          | [] => none
        match withSuffix with
        | some x => some x
        | none =>
          let ws3 := r4.takeWhile isWsCh
          match r4.drop ws3.length with
          | ')' :: _ =>
            some (ws.length + 1 + ws2.length + 4 + ws3.length + 1,
              [d1, d2, d3, d4])
          | _ => none
      else none
    | _ => none
  | _ => none

/-- The optional second author `(?:\s+(?:&|and)\s+[A-Z][A-Za-z'’\-]+)`
of `NARR_RE`; returns the consumed length. -/
def optAuthor2 (r : List Char) : Option Nat :=
  let ws1 := r.takeWhile isWsCh
  if ws1.isEmpty then none
  else
    let afterAmp : Option (Nat × List Char) :=
      match r.drop ws1.length with
      | '&' :: r2 => some (1, r2)
      | 'a' :: 'n' :: 'd' :: r2 => some (3, r2)
      | _ => none
    match afterAmp with
    | none => none
    | some (k, r2) =>
      let ws2 := r2.takeWhile isWsCh
      if ws2.isEmpty then none
      else
        match r2.drop ws2.length with
        | c :: r4 =>
          if isAsciiUpper c then
            let run := r4.takeWhile isNameCh
            if run.isEmpty then none
            else some (ws1.length + k + ws2.length + 1 + run.length)
          else none
        | [] => none

/-- The optional `(?:\s+et al\.)` of `NARR_RE`; returns the consumed
length. -/
def optEtAl (r : List Char) : Option Nat :=
  let ws1 := r.takeWhile isWsCh
  if ws1.isEmpty then none
  else
    match r.drop ws1.length with
    | 'e' :: 't' :: ' ' :: 'a' :: 'l' :: '.' :: _ => some (ws1.length + 6)
    | _ => none

/-- One attempt of `NARR_RE` at the head of the input: group 1
(author list incl. optional second author / `et al.`), then the year in
parentheses.  The optional groups are greedy and backtrack in regex
order: both present, then only the second author, then only `et al.`,
then neither.  Returns (group-1 length, match length, year group). -/
def matchNarrAt (prev : Bool) (cs : List Char) :
    Option (Nat × Nat × List Char) :=
  if prev then none   -- `\b` before `[A-Z]`
  else
    match cs with
    | c1 :: r1 =>
      if isAsciiUpper c1 then
        let run := r1.takeWhile isNameCh
        if run.isEmpty then none
        else
          let g1base := 1 + run.length
          let r2 := r1.drop run.length
          let tryFrom (g1len : Nat) (r : List Char) :
              Option (Nat × Nat × List Char) :=
            (narrTail r).map (fun ny => (g1len, g1len + ny.1, ny.2))
          let withA : Option (Nat × Nat × List Char) :=
            match optAuthor2 r2 with
            | some ka =>
              let rA := r2.drop ka
              (match optEtAl rA with
               | some kb => tryFrom (g1base + ka + kb) (rA.drop kb)
               | none => none).orElse
                (fun _ => tryFrom (g1base + ka) rA)
            | none => none
          match withA with
          | some x => some x
          | none =>
            match optEtAl r2 with
            | some kb =>
              match tryFrom (g1base + kb) (r2.drop kb) with
              | some x => some x
              | none => tryFrom g1base r2
            | none => tryFrom g1base r2
      else none
    | [] => none

/-- `NARR_RE.finditer`: (start, group-1 length, match length, year
group) for each leftmost non-overlapping match.  A match always ends
with `)`, a non-word character, so scanning resumes with a non-word
left side. -/
def narrFindAllAux (fuel : Nat) (prev : Bool) (pos : Nat) (cs : List Char) :
    List (Nat × Nat × Nat × List Char) :=
  match fuel with
  | 0 => []
  | fuel + 1 =>
    match matchNarrAt prev cs with
    | some (g1len, n, y) => (pos, g1len, n, y) :: narrFindAllAux fuel false (pos + n) (cs.drop n)
    | none =>
      match cs with
      | [] => []
      | c :: rest => narrFindAllAux fuel (isWordCh c) (pos + 1) rest

def narrFindAll (cs : List Char) : List (Nat × Nat × Nat × List Char) :=
  narrFindAllAux (cs.length + 1) false 0 cs

/-- A citation record as produced by `citations.py` (the dictionary
fields, with `None` as `Option`). -/
structure Citation where
  citation_text : String
  citation_type : String
  author : String
  year : String
  is_secondary : Bool
  primary_mentioned_author : Option String
  primary_mentioned_year : Option String
  stated_page : Option String
  span : Nat × Nat
deriving Repr, DecidableEq

/-- The records one parenthetical block contributes: a single
`secondary_parenthetical` record when the `as cited in` pattern matches
(primary fields `None`), else one `parenthetical` record per
(author, year) pair. -/
def mkParen (block : List Char) (span : Nat × Nat) : List Citation :=
  let stated : Option String := (pageSearch block).map (fun g => String.mk (stripWs g))
  match asCitedSearch block with
  | some (_, a, y) =>
    [{ citation_text := String.mk ('(' :: (block ++ [')'])),
       citation_type := "secondary_parenthetical",
       author := String.mk (stripWs a),
       year := String.mk (stripWs y),
       is_secondary := true,
       primary_mentioned_author := none,
       primary_mentioned_year := none,
       stated_page := stated,
       span := span }]
  | none =>
    (pairFindAll block).map (fun ay =>
      { citation_text := String.mk ('(' :: (block ++ [')'])),
        citation_type := "parenthetical",
        author := String.mk (stripWs ay.1),
        year := String.mk (stripWs ay.2),
        is_secondary := false,
        primary_mentioned_author := none,
        primary_mentioned_year := none,
        stated_page := stated,
        span := span })

def _extract_parenthetical_pairs (sentence : String) : List Citation :=
  (parenBlocks sentence.data).flatMap (fun bs => mkParen bs.1 bs.2)

/-- One narrative match turned into a record (`secondary_narrative`
when `as cited in` follows the match, else `narrative`). -/
def mkNarr (cs : List Char) (m : Nat × Nat × Nat × List Char) : Citation :=
  let pos := m.1
  let g1len := m.2.1
  let n := m.2.2.1
  let y := m.2.2.2
  let matchText := (cs.drop pos).take n
  let g1 := (cs.drop pos).take g1len
  let tail := cs.drop (pos + n)
  let stated : Option String :=
    match pageSearch tail with
    | some g => some (String.mk (stripWs g))
    | none => (pageSearch (cs.take pos)).map (fun g => String.mk (stripWs g))
  match asCitedSearch tail with
  | some (g0, a2, y2) =>
    { citation_text := String.mk (matchText ++ ", as cited in ".data ++ g0),
      citation_type := "secondary_narrative",
      author := String.mk (stripWs a2),
      year := String.mk (stripWs y2),
      is_secondary := true,
      primary_mentioned_author := some (String.mk (stripWs g1)),
      primary_mentioned_year := some (String.mk (stripWs y)),
      stated_page := stated,
      span := (pos, pos + n) }
  | none =>
    { citation_text := String.mk matchText,
      citation_type := "narrative",
      author := String.mk (stripWs g1),
      year := String.mk (stripWs y),
      is_secondary := false,
      primary_mentioned_author := none,
      primary_mentioned_year := none,
      stated_page := stated,
      span := (pos, pos + n) }

def _extract_narrative_pairs (sentence : String) : List Citation :=
  (narrFindAll sentence.data).map (mkNarr sentence.data)

/-- The dedup key `(author, year, citation_type, span)` of
`parse_citations`. -/
def citKey (c : Citation) : String × String × String × (Nat × Nat) :=
  (c.author, c.year, c.citation_type, c.span)

def dedupCitAux (seen : List (String × String × String × (Nat × Nat))) :
    List Citation → List Citation
  | [] => []
  | c :: cs =>
    if citKey c ∈ seen then dedupCitAux seen cs
    else c :: dedupCitAux (citKey c :: seen) cs

/-- `parse_citations`: parenthetical then narrative records,
de-duplicated by `(author, year, citation_type, span)` keeping the
first occurrence. -/
def parse_citations (sentence : String) : List Citation :=
  dedupCitAux [] (_extract_parenthetical_pairs sentence ++ _extract_narrative_pairs sentence)

/-- Sort key of `_tie_break`'s fallback as a lexicographic pair. -/
def tbKey (a : String) : Lex (Nat × String) := toLex (a.length, lowerStr a)

/-! ## src/audit_lib/retrieval.py and scripts/40_retrieve_candidates.py —
EvidenceRetriever

The `Dict[int, str]` of page texts is modelled as an association list
(`chunk_pages_to_windows` immediately sorts its items by page number,
so only the key set and values matter).  Python float scores are
modelled by exact rationals. -/

structure Chunk where
  page_start : Int
  page_end : Int
  text : String
deriving Repr, DecidableEq

structure Ev where
  page_range : String
  text : String
  score : Int
deriving Repr, DecidableEq

/-- `sorted(pages.items(), key=lambda kv: int(kv[0]))` — stable
insertion sort by page number (a dict's keys are distinct, so
stability is moot, but the model keeps it). -/
def insertByKey (x : Int × String) : List (Int × String) → List (Int × String)
  | [] => [x]
  | y :: ys => if y.1 ≤ x.1 then y :: insertByKey x ys else x :: y :: ys

def sortByKey (l : List (Int × String)) : List (Int × String) :=
  l.foldl (fun acc x => insertByKey x acc) []

/-- `re.split(r"\s+", text.strip()) if text else []`: `re.split` on the
empty string yields `[""]`, so a non-empty all-whitespace page
produces the single word `""` (and hence one empty-text window). -/
def pageWords (text : String) : List String :=
  if text = "" then []
  else
    let st := stripWs text.data
    if st.isEmpty then [""]
    else (splitWsTokens st).map String.mk

/-- `range(0, stop, step)` for `step ≥ 1` (`stop` pieces of fuel are
enough then; Python raises `ValueError` on `step = 0`, which never
happens with the config-supplied strides). -/
def rangeStepAux (fuel i stop step : Nat) : List Nat :=
  match fuel with
  | 0 => []
  | fuel + 1 => if i < stop then i :: rangeStepAux fuel (i + step) stop step else []

def rangeStep (stop step : Nat) : List Nat := rangeStepAux stop 0 stop step

/-- `" ".join(words)`. -/
def joinSpace : List String → String
  | [] => ""
  | [w] => w
  | w :: ws => w ++ " " ++ joinSpace ws

/-- The per-page branch of `chunk_pages_to_windows` (note
`max(1, len(words) - chunk_words + 1)`: a non-empty page shorter than
`chunk_words` still yields one window; `ℕ` truncation at 0 matches the
`max` with 1). -/
def perPageChunks (cw stride : Nat) (items : List (Int × String)) : List Chunk :=
  items.flatMap (fun pt =>
    let words := pageWords pt.2
    if words.isEmpty then []
    else
      (rangeStep (max 1 (words.length - cw + 1)) stride).map (fun i =>
        ⟨pt.1, pt.1, joinSpace ((words.drop i).take cw)⟩))

/-- Python `min` over a non-empty list (the slices indexed below are
never empty; 0 is a dead default). -/
def listMinInt : List Int → Int
  | [] => 0
  | x :: xs => xs.foldl min x

def listMaxInt : List Int → Int
  | [] => 0
  | x :: xs => xs.foldl max x

/-- The cross-page branch: one token stream with a page number per
token; each window spans `min`/`max` of the pages it covers. -/
def crossPageChunks (cw stride : Nat) (items : List (Int × String)) : List Chunk :=
  let tp := items.flatMap (fun pt => (pageWords pt.2).map (fun w => (w, pt.1)))
  if tp.isEmpty then []
  else
    (rangeStep (max 1 (tp.length - cw + 1)) stride).map (fun i =>
      let sl := (tp.drop i).take cw
      ⟨listMinInt (sl.map Prod.snd), listMaxInt (sl.map Prod.snd),
        joinSpace (sl.map Prod.fst)⟩)

def chunk_pages_to_windows (pages : List (Int × String)) (chunk_words stride : Nat)
    (cross_page : Bool) : List Chunk :=
  let items := sortByKey pages
  if cross_page then crossPageChunks chunk_words stride items
  else perPageChunks chunk_words stride items

/-- Keep-first de-duplication of a token list (a Python `set` used only
through membership and size). -/
def dedupStrAux (seen : List String) : List String → List String
  | [] => []
  | t :: ts =>
    if seen.contains t then dedupStrAux seen ts
    else t :: dedupStrAux (t :: seen) ts

def dedupStr (l : List String) : List String := dedupStrAux [] l

/-- Modelled from the spec: the fuzzy stage ranks windows with
rapidfuzz `fuzz.token_set_ratio` (external library, no source in this
repository); the spec calls it "token-set text similarity".  Model: a
total 0–100 score over the whitespace-token sets of the two strings —
100 when the sets intersect and one contains the other (rapidfuzz's
documented shortcut), otherwise the Sørensen–Dice ratio
`200·|A∩B|/(|A|+|B|)` (0 when both sets are empty, as
`token_set_ratio("", "")` is 0).  The claims settled below depend only
on totality and on which indices `process.extract` returns, never on
the numeric score. -/
def tokenSetRatio (a b : String) : ℚ :=
  let ta := dedupStr ((splitWsTokens a.data).map String.mk)
  let tb := dedupStr ((splitWsTokens b.data).map String.mk)
  let inter := ta.filter (fun t => tb.contains t)
  if !inter.isEmpty && (ta.all (fun t => tb.contains t) || tb.all (fun t => ta.contains t))
  then 100
  else if ta.isEmpty && tb.isEmpty then 0
  else (200 * inter.length : ℚ) / ((ta.length : ℚ) + (tb.length : ℚ))

/-- Stable descending insertion (equal scores keep the earlier index
first). -/
def insertDesc (x : ℚ × Nat) : List (ℚ × Nat) → List (ℚ × Nat)
  | [] => [x]
  | y :: ys => if y.1 < x.1 then x :: y :: ys else y :: insertDesc x ys

/-- Modelled from the spec: `process.extract(query, corpus, scorer,
limit=k)` scores every choice, orders descending by score (ties by
lower index) and returns the best `k` as `(score, index)` pairs (the
caller ignores the returned choice string). -/
def processExtract (query : String) (corpus : List String) (limit : Nat) :
    List (ℚ × Nat) :=
  let scored := corpus.enum.map (fun p => (tokenSetRatio query p.2, p.1))
  (scored.foldl (fun acc x => insertDesc x acc) []).take limit

/-- `f"{ps}"` when the window sits on one page, else `f"{ps}-{pe}"`. -/
def pageRangeStr (ps pe : Int) : String :=
  if ps = pe then toString ps else toString ps ++ "-" ++ toString pe

def defaultChunk : Chunk := ⟨0, 0, ""⟩

/-- `top_k_chunks_for_claim`: `raise ValueError("k must be positive")`
is `Except.error`; `chunks[idx]` is modelled with `getD` (total in the
source: the indices come from the corpus built from `chunks` itself);
`int(score)` is `Rat.floor` (scores are non-negative). -/
def top_k_chunks_for_claim (claim : String) (chunks : List Chunk) (k : Int) :
    Except String (List Ev) :=
  if k ≤ 0 then Except.error "k must be positive"
  else
    let corpus := chunks.map (fun c => c.text)
    let ranked := processExtract claim corpus k.toNat
    Except.ok (ranked.map (fun si =>
      let c := chunks.getD si.2 defaultChunk
      ⟨pageRangeStr c.page_start c.page_end, c.text, Rat.floor si.1⟩))

/-- `as_bool` from `scripts/40_retrieve_candidates.py`: the registry is
read with `dtype=str`, so `val` is always a string and the
`isinstance(val, (int, float))` branch is dead. -/
def as_bool (val : String) : Bool :=
  let s := lowerStr (String.mk (stripWs val.data))
  s == "1" || s == "true" || s == "t" || s == "y" || s == "yes"

/-- `normalize_quotes`: curly double quotes to `"`, curly single quotes
to `'`. -/
def normalize_quotes_ch (c : Char) : Char :=
  if c = '“' ∨ c = '”' then '"'
  else if c = '’' ∨ c = '‘' then '\''
  else c

def normalize_quotes (cs : List Char) : List Char := cs.map normalize_quotes_ch

/-- Lazy group of `[\"“](.+?)[\"”]` after the opening quote: consume
one non-newline character, then stop at the first closing quote (`.`
never matches a newline, so a newline before any close fails the
match at this opening quote). -/
def lazyQuoteBodyAux (fuel : Nat) (acc : List Char) (cs : List Char) :
    Option (List Char × List Char) :=
  match fuel with
  | 0 => none
  | fuel + 1 =>
    match cs with
    | [] => none
    | c :: rest =>
      if c == '"' || c == '”' then some (acc.reverse, rest)
      else if c == '\n' then none
      else lazyQuoteBodyAux fuel (c :: acc) rest

def lazyQuoteBody : List Char → Option (List Char × List Char)
  | [] => none
  | c :: rest => if c == '\n' then none else lazyQuoteBodyAux (rest.length + 1) [c] rest

/-- `re.finditer(r'[\"“](.+?)[\"”]', claim_text)` — the group-1 texts,
scanning left to right, non-overlapping. -/
def quoteSpansAux (fuel : Nat) (cs : List Char) : List (List Char) :=
  match fuel with
  | 0 => []
  | fuel + 1 =>
    match cs with
    | [] => []
    | c :: rest =>
      if c == '"' || c == '“' then
        match lazyQuoteBody rest with
        | some (body, rest2) => body :: quoteSpansAux fuel rest2
        | none => quoteSpansAux fuel rest
      else quoteSpansAux fuel rest

def quoteSpans (cs : List Char) : List (List Char) := quoteSpansAux (cs.length + 1) cs

/-- `haystack.find(needle) != -1`. -/
def containsSub (pat hay : List Char) : Bool :=
  (List.range (hay.length + 1)).any (fun i => pat.isPrefixOf (hay.drop i))

/-- Insert into a sorted list of distinct integers (`sorted` over a
`set`). -/
def insertSortedInt (x : Int) : List Int → List Int
  | [] => [x]
  | y :: ys =>
    if x < y then x :: y :: ys
    else if x = y then y :: ys
    else y :: insertSortedInt x ys

/-- `find_exact_quote_pages`: for every quoted span of the claim, every
page whose normalized text contains the normalized span; the result is
the sorted set of page numbers. -/
def find_exact_quote_pages (pages : List (Int × String)) (claim_text : String) :
    List Int :=
  if claim_text = "" then []
  else
    ((quoteSpans claim_text.data).flatMap (fun q =>
      pages.filterMap (fun pp =>
        if containsSub (normalize_quotes q) (normalize_quotes pp.2.data) then some pp.1
        else none))).foldl (fun acc x => insertSortedInt x acc) []

/-- The candidate entry appended for an anchor/offset window
(heuristic score 100). -/
def anchorEv (c : Chunk) : Ev := ⟨pageRangeStr c.page_start c.page_end, c.text, 100⟩

/-- `add_page_chunks`: walk `enumerate(chunks)`, skip indices already
in `used_idx`, append windows overlapping some target page, and stop
once `added >= max_add` (checked after appending, like the source's
early `return`).  State is `(candidate_chunks, used_idx)`. -/
def addPageChunksAux (targets : List Int) (max_add : Nat) :
    List Chunk → Nat → Nat → List Ev × List Nat → List Ev × List Nat
  | [], _, _, st => st
  | ch :: rest, idx, added, (cand, used) =>
    if used.contains idx then
      addPageChunksAux targets max_add rest (idx + 1) added (cand, used)
    else if targets.any (fun p => decide (ch.page_start ≤ p) && decide (p ≤ ch.page_end)) then
      if max_add ≤ added + 1 then (cand ++ [anchorEv ch], used ++ [idx])
      else addPageChunksAux targets max_add rest (idx + 1) (added + 1)
        (cand ++ [anchorEv ch], used ++ [idx])
    else addPageChunksAux targets max_add rest (idx + 1) added (cand, used)

def addPageChunks (chunks : List Chunk) (targets : List Int) (max_add : Nat)
    (st : List Ev × List Nat) : List Ev × List Nat :=
  addPageChunksAux targets max_add chunks 0 0 st

/-- `re.search(r"(\d+)", stated)` — the first maximal digit run. -/
def firstDigitRun : List Char → Option (List Char)
  | [] => none
  | c :: rest =>
    if isDigitCh c then some (c :: rest.takeWhile isDigitCh) else firstDigitRun rest

/-- `int` of a digit string. -/
def digitsToNat (cs : List Char) : Nat :=
  cs.foldl (fun acc c => acc * 10 + (c.toNat - 48)) 0

/-- The registry-row fields the assembly loop reads (the registry is
read with `dtype=str`, so all are strings). -/
structure ClaimRow where
  is_quote : String
  claim_text : String
  stated_page : String
deriving Repr, DecidableEq

/-- Stages 1–2 of the per-claim assembly in
`scripts/40_retrieve_candidates.py`: exact-quote anchors (only when
`is_quote`), then the offset-mapped stated page (stage-2 cap
`max(1, TOPK - len(candidate_chunks))`).  Returns
`(candidate_chunks, used_idx)`. -/
def assembleStage12 (pages : List (Int × String)) (offset : Option Int)
    (row : ClaimRow) (chunks : List Chunk) (topk : Nat) : List Ev × List Nat :=
  let st1 :=
    if as_bool row.is_quote then
      let exact_pages := find_exact_quote_pages pages row.claim_text
      if exact_pages.isEmpty then (([] : List Ev), ([] : List Nat))
      else addPageChunks chunks exact_pages topk ([], [])
    else (([] : List Ev), ([] : List Nat))
  let stated := String.mk (stripWs row.stated_page.data)
  match (if stated = "" then none else firstDigitRun stated.data), offset with
  | some ds, some off =>
    if pages.any (fun pp => pp.1 == (digitsToNat ds : Int) - off) then
      addPageChunks chunks [(digitsToNat ds : Int) - off]
        (max 1 (topk - st1.1.length)) st1
    else st1
  | _, _ => st1

/-- The whole per-claim assembly: stages 1–2, then the fuzzy fallback
over the FULL window list whenever fewer than `top_k` candidates were
gathered (`rem ≥ 1` there, so the `ValueError` branch is dead and the
`Except.error` arm is unreachable), finally `[:TOPK]`. -/
def assembleEvidence (pages : List (Int × String)) (offset : Option Int)
    (row : ClaimRow) (chunk_words stride topk : Nat) : List Ev :=
  let chunks := chunk_pages_to_windows pages chunk_words stride false
  let st := assembleStage12 pages offset row chunks topk
  let cand :=
    if st.1.length < topk then
      match top_k_chunks_for_claim row.claim_text chunks
          ((topk : Int) - (st.1.length : Int)) with
      | Except.ok fuzzy => st.1 ++ fuzzy
      | Except.error _ => st.1
    else st.1
  cand.take topk

/-! ## src/audit_lib/enrich/section_scoring.py — SectionAssigner

Floats are modelled by exact rationals; `math.sqrt` and `math.log`
enter only through the function parameters `sq` and `lg`, so the
theorems below hold for any model of them.  String-keyed dicts are
association lists in insertion order. -/

/-- `string.punctuation` (ASCII code points 33–47, 58–64, 91–96,
123–126). -/
def isPyPunct (c : Char) : Bool :=
  (33 ≤ c.toNat && c.toNat ≤ 47) || (58 ≤ c.toNat && c.toNat ≤ 64) ||
    (91 ≤ c.toNat && c.toNat ≤ 96) || (123 ≤ c.toNat && c.toNat ≤ 126)

def STOP : List String :=
  ["the", "and", "a", "an", "of", "to", "in", "for", "on", "with", "as", "by",
   "from", "at", "that", "this", "these", "those",
   "is", "are", "was", "were", "be", "been", "being", "it", "its", "their",
   "there", "which", "or", "not", "but", "if", "than",
   "can", "may", "might", "should", "would", "could", "will", "shall", "do",
   "does", "did", "done", "such", "into", "over",
   "about", "across", "per", "vs", "via", "within", "between", "among", "both",
   "also", "more", "most", "much", "many", "some",
   "any", "each", "other", "another", "however", "therefore", "thus", "so",
   "because", "while", "where", "when"]

/-- `str.isascii()`. -/
def strIsAscii (s : String) : Bool := s.data.all (fun c => c.toNat < 128)

/-- `tokens(text)`: lowercase, `PUNCT_TABLE_SP` (punctuation to
space), whitespace split, keep ASCII non-stopword tokens longer than
one character. -/
def tokens (text : String) : List String :=
  if text = "" then []
  else
    ((splitWsTokens ((text.data.map lowerCh).map
        (fun c => if isPyPunct c then ' ' else c))).map String.mk).filter
      (fun t => decide (1 < t.length) && !STOP.contains t && strIsAscii t)

/-- `d[t] = d.get(t, 0.0) + 1.0` on an insertion-ordered dict. -/
def bumpCount (m : List (String × ℚ)) (t : String) : List (String × ℚ) :=
  if m.any (fun kv => kv.1 == t) then
    m.map (fun kv => if kv.1 == t then (kv.1, kv.2 + 1) else kv)
  else m ++ [(t, 1)]

/-- `tf(tokens)`: counts divided by `float(len(tokens)) or 1.0`. -/
def tf (toks : List String) : List (String × ℚ) :=
  (toks.foldl bumpCount []).map
    (fun kv => (kv.1, kv.2 / (if toks.length = 0 then (1 : ℚ) else (toks.length : ℚ))))

def dictGet (m : List (String × ℚ)) (k : String) (dflt : ℚ) : ℚ :=
  match m.find? (fun kv => kv.1 == k) with
  | some kv => kv.2
  | none => dflt

def dictHas (m : List (String × ℚ)) (k : String) : Bool :=
  m.any (fun kv => kv.1 == k)

/-- `cosine` with `math.sqrt` abstracted as `sq`. -/
def cosine (sq : ℚ → ℚ) (a b : List (String × ℚ)) : ℚ :=
  if a.isEmpty || b.isEmpty then 0
  else
    let dot := a.foldl
      (fun acc kv => if dictHas b kv.1 then acc + kv.2 * dictGet b kv.1 0 else acc) 0
    let na := sq (a.foldl (fun acc kv => acc + kv.2 * kv.2) 0)
    let nb := sq (b.foldl (fun acc kv => acc + kv.2 * kv.2) 0)
    if na = 0 ∨ nb = 0 then 0 else dot / (na * nb)

/-- A literal regex fragment. -/
def litMatch : List Char → List Char → Option (List Char)
  | [], rest => some rest
  | l :: ls, c :: rest => if c == l then litMatch ls rest else none
  | _ :: _, [] => none

/-- `\s+` (greedy; the following heading word starts with a letter, so
no backtracking is ever needed). -/
def wsPlus (cs : List Char) : Option (List Char) :=
  let w := cs.takeWhile isWsCh
  if w.isEmpty then none else some (cs.drop w.length)

/-- The remaining `\s+word` groups of a heading pattern. -/
def matchSeqWords : List (List Char) → List Char → Option (List Char)
  | [], rest => some rest
  | w :: ws, cs =>
    match wsPlus cs with
    | some r1 =>
      match litMatch w r1 with
      | some r2 => matchSeqWords ws r2
      | none => none
    | none => none

/-- A heading pattern `\bw₁\s+w₂…\b` anchored at the current
position: boundary before (the words start and end with letters, so
`\b` holds iff the neighbour is a non-word character or an end). -/
def headingPatHere (prevWord : Bool) (ws : List (List Char)) (cs : List Char) : Bool :=
  if prevWord then false
  else
    match ws with
    | [] => true
    | w :: rest =>
      match litMatch w cs with
      | some r1 =>
        match matchSeqWords rest r1 with
        | some r2 =>
          match r2 with
          | [] => true
          | c :: _ => !isWordCh c
        | none => false
      | none => false

def headingPatSearchAux (fuel : Nat) (prevWord : Bool) (ws : List (List Char))
    (cs : List Char) : Bool :=
  match fuel with
  | 0 => false
  | fuel + 1 =>
    if headingPatHere prevWord ws cs then true
    else
      match cs with
      | [] => false
      | c :: rest => headingPatSearchAux fuel (isWordCh c) ws rest

/-- `re.search` of a heading pattern. -/
def headingPatSearch (ws : List (List Char)) (cs : List Char) : Bool :=
  headingPatSearchAux (cs.length + 1) false ws cs

/-- `heading_penalty_factor`: 0.60 when the lowercased title matches
`\bexecutive\s+summary\b`, `\babstract\b` or `\boverview\b`, else
1.0. -/
def heading_penalty_factor (title : String) : ℚ :=
  if headingPatSearch ["executive".data, "summary".data] (lowerStr title).data then 60 / 100
  else if headingPatSearch ["abstract".data] (lowerStr title).data then 60 / 100
  else if headingPatSearch ["overview".data] (lowerStr title).data then 60 / 100
  else 1

/-- `{4: 1.15, 3: 1.10, 2: 1.00, 1: 0.90}.get(level, 1.00)`. -/
def level_boost (level : Int) : ℚ :=
  if level = 4 then 115 / 100
  else if level = 3 then 110 / 100
  else if level = 2 then 1
  else if level = 1 then 90 / 100
  else 1

/-- `df[term] = df.get(term, 0) + 1`. -/
def bumpDf (m : List (String × Nat)) (t : String) : List (String × Nat) :=
  if m.any (fun kv => kv.1 == t) then
    m.map (fun kv => if kv.1 == t then (kv.1, kv.2 + 1) else kv)
  else m ++ [(t, 1)]

/-- `build_tfidf` with `math.log` abstracted as `lg`
(`idf[term] = lg((N + 1) / (df + 1)) + 1`,
`N = float(len(tf_list)) or 1.0`). -/
def build_tfidf (lg : ℚ → ℚ) (section_bodies : List (List String)) :
    List (List (String × ℚ)) × List (String × ℚ) :=
  let tf_list := section_bodies.map tf
  let df := tf_list.foldl (fun acc tfd => tfd.foldl (fun a kv => bumpDf a kv.1) acc) []
  (tf_list, df.map (fun kv =>
    (kv.1,
      lg (((if tf_list.length = 0 then (1 : ℚ) else (tf_list.length : ℚ)) + 1) /
        ((kv.2 : ℚ) + 1)) + 1)))

/-- `apply_idf`: `{t: w * idf.get(t, 1.0)}`. -/
def apply_idf (tfd idf : List (String × ℚ)) : List (String × ℚ) :=
  tfd.map (fun kv => (kv.1, kv.2 * dictGet idf kv.1 1))

/-- One parsed section record. -/
structure Section where
  title : String
  body : String
  level : Int
deriving Repr, DecidableEq

/-- The third component of the returned triple:
`int(s.get("level", 2)) if s.get("level") else ""` (the `""` sentinel
for a falsy level is `none`). -/
def levelField (lv : Int) : Option Int := if lv = 0 then none else some lv

/-- The main scoring loop of `best_section_for_claim` over
`zip(sections, tf_list)`
(`sim = cosine(claim_vec, sec_vec) · penalty · boost`, updating on
`sim > best_score`). -/
def bestLoop (sq : ℚ → ℚ) (claim_vec idf : List (String × ℚ)) :
    List (Section × List (String × ℚ)) → ℚ × (String × String × Option Int) →
      ℚ × (String × String × Option Int)
  | [], st => st
  | (s, tfd) :: rest, (bs, best) =>
    if bs < cosine sq claim_vec (apply_idf tfd idf) * heading_penalty_factor s.title *
        level_boost s.level then
      bestLoop sq claim_vec idf rest
        (cosine sq claim_vec (apply_idf tfd idf) * heading_penalty_factor s.title *
          level_boost s.level,
         (s.title, s.title, levelField s.level))
    else bestLoop sq claim_vec idf rest (bs, best)

/-- `len(claim_toks.intersection(set(tokens(title))))`. -/
def overlapCount (claimToks : List String) (title : String) : Nat :=
  ((dedupStr (tokens title)).filter (fun t => claimToks.contains t)).length

/-- The fallback loop of `best_section_for_claim` (raw token overlap
with the section titles, same penalty and boost weighting,
`best2_score` starting at the integer `-1`). -/
def fallbackLoop (claimToks : List String) :
    List Section → ℚ × (String × String × Option Int) →
      ℚ × (String × String × Option Int)
  | [], st => st
  | s :: rest, (bs, best) =>
    if bs < (overlapCount claimToks s.title : ℚ) * heading_penalty_factor s.title *
        level_boost s.level then
      fallbackLoop claimToks rest
        ((overlapCount claimToks s.title : ℚ) * heading_penalty_factor s.title *
          level_boost s.level,
         (s.title, s.title, levelField s.level))
    else fallbackLoop claimToks rest (bs, best)

/-- `best_section_for_claim` — the `(title, title, level)` triple; the
fallback runs when the main loop's best score is `≤ 0`. -/
def best_section_for_claim (sq lg : ℚ → ℚ) (claim_text : String)
    (sections : List Section) : String × String × Option Int :=
  let p := build_tfidf lg (sections.map (fun s => tokens s.body))
  let r := bestLoop sq (apply_idf (tf (tokens claim_text)) p.2) p.2
    (sections.zip p.1) (-1, ("unknown", "unknown", none))
  if r.1 ≤ 0 then
    (fallbackLoop (dedupStr (tokens claim_text)) sections
      (-1, ("unknown", "unknown", none))).2
  else r.2

end CitationAudit

namespace CitationAudit

/-! ### Lemmas for the merge model -/

theorem fillField_ne_blank (l c : String) (h : l ≠ "") : fillField l c = l := by
  simp [fillField, h]

theorem fillField_idem (a c : String) : fillField (fillField a c) c = fillField a c := by
  unfold fillField
  by_cases h : a = "" <;> simp [h]

theorem fillField_blank (l : String) : fillField l "" = l := by
  unfold fillField
  by_cases h : l = "" <;> simp [h]

theorem fillRow_none (l : LRow) : fillRow l none = l := by
  cases l
  simp [fillRow, candOf, fillField_blank]

theorem fillRow_key (l : LRow) (o : Option RRow) : (fillRow l o).key = l.key := rfl

theorem fillRow_idem (l : LRow) (o : Option RRow) :
    fillRow (fillRow l o) o = fillRow l o := by
  cases o with
  | none => rw [fillRow_none, fillRow_none]
  | some r => simp [fillRow, candOf, fillField_idem]

theorem merge_fill_length (left : List LRow) (right : List RRow) :
    (merge_fill left right).length = left.length := by
  unfold merge_fill
  split <;> simp

theorem merge_fill_getD (left : List LRow) (right : List RRow) (i : Nat)
    (h : i < left.length) :
    (merge_fill left right).getD i defaultLRow =
      if right.isEmpty then left.getD i defaultLRow
      else fillRow (left.getD i defaultLRow)
        (lookupKey (_dedupe_by_key right) (left.getD i defaultLRow).key) := by
  unfold merge_fill
  split <;> simp [List.getD_eq_getElem?_getD, List.getElem?_map,
    List.getElem?_eq_getElem h]

/-- Claim C1: `merge_fill` only assigns to blank positions.  For every
scaffold table, every external decision table, every row position, and
every decision field (`verdict`, `rationale`, `evidence_span`,
`required_fix`, `risk_flags`, `page_anchor`), a row whose field value is
non-blank in the scaffold keeps exactly that value in the output. -/
theorem merge_fill_preserves_nonblank
    (left : List LRow) (right : List RRow) (i : Nat) (h : i < left.length)
    (f : DecisionField)
    (hnb : f.getL (left.getD i defaultLRow) ≠ "") :
    f.getL ((merge_fill left right).getD i defaultLRow) =
      f.getL (left.getD i defaultLRow) := by
  rw [merge_fill_getD left right i h]
  split
  · rfl
  · cases f <;>
      simp only [DecisionField.getL, fillRow] <;>
      exact fillField_ne_blank _ _ hnb

/-- Witness for C1: a scaffold row with non-blank `verdict` "supported"
keeps it even when an external source offers a different verdict. -/
theorem merge_fill_preserves_nonblank_witness :
    (0 : Nat) < ([{ defaultLRow with verdict := "supported" }] : List LRow).length ∧
    DecisionField.verdict.getL
        (([{ defaultLRow with verdict := "supported" }] : List LRow).getD 0 defaultLRow) ≠ "" ∧
    DecisionField.verdict.getL
      ((merge_fill [{ defaultLRow with verdict := "supported" }]
        [{ review_id := "", section_col := "", claim_id := "",
           verdict := "refuted", rationale := "", evidence_span := "",
           required_fix := "", risk_flags := "", page_anchor := "",
           source_pdf_path := "" }]).getD 0 defaultLRow) =
      DecisionField.verdict.getL
        (([{ defaultLRow with verdict := "supported" }] : List LRow).getD 0 defaultLRow) :=
  ⟨by decide, by decide,
    merge_fill_preserves_nonblank _ _ 0 (by decide) DecisionField.verdict (by decide)⟩

/-- Claim C2: `merge_fill` is idempotent — merging the same external
decision table a second time into the result of `merge_fill` yields an
identical table. -/
theorem merge_fill_idem (left : List LRow) (right : List RRow) :
    merge_fill (merge_fill left right) right = merge_fill left right := by
  unfold merge_fill
  split
  · rfl
  · simp only [List.map_map]
    apply List.map_congr_left
    intro l _
    simp only [Function.comp_apply, fillRow_key, fillRow_idem]

/-- Claim C3: for every non-empty scaffold table and every sequence of
external decision tables merged via `merge_fill`, the output row count
equals the scaffold row count — no rows are added or removed, even when
an external source contains duplicate keys or keys absent from the
scaffold. -/
theorem merge_fill_row_count
    (left : List LRow) (hne : left ≠ [])
    (rights : List (List RRow)) :
    (rights.foldl merge_fill left).length = left.length := by
  induction rights generalizing left with
  | nil => rfl
  | cons r rs ih =>
    simp only [List.foldl_cons]
    rw [ih (merge_fill left r), merge_fill_length]
    intro hcontra
    exact hne (List.eq_nil_of_length_eq_zero
      (by rw [← merge_fill_length left r, hcontra]; rfl))

/-- Witness for C3: one scaffold row survives a sequence of two merges
(one source with a duplicate key, one with an unmatched key). -/
theorem merge_fill_row_count_witness :
    ([defaultLRow] : List LRow) ≠ [] ∧
    (([[{ review_id := "r", section_col := "s", claim_id := "c",
          verdict := "v", rationale := "", evidence_span := "",
          required_fix := "", risk_flags := "", page_anchor := "",
          source_pdf_path := "" },
        { review_id := "r", section_col := "s", claim_id := "c",
          verdict := "w", rationale := "", evidence_span := "",
          required_fix := "", risk_flags := "", page_anchor := "",
          source_pdf_path := "" }],
       [{ review_id := "x", section_col := "y", claim_id := "z",
          verdict := "v", rationale := "", evidence_span := "",
          required_fix := "", risk_flags := "", page_anchor := "",
          source_pdf_path := "" }]] : List (List RRow)).foldl
        merge_fill [defaultLRow]).length = ([defaultLRow] : List LRow).length :=
  ⟨by decide, merge_fill_row_count [defaultLRow] (by decide) _⟩

/-! ### Character facts for the normalizer lemmas -/

theorem lower_bounds {c : Char} (h : isAsciiLower c = true) :
    97 ≤ c.toNat ∧ c.toNat ≤ 122 := by
  simpa [isAsciiLower, Bool.and_eq_true, decide_eq_true_eq] using h

theorem char_toNat_ofNat_valid {n : Nat} (h2 : n ≤ 122) :
    (Char.ofNat n).toNat = n := by
  unfold Char.ofNat
  split
  · rfl
  · rename_i h
    exact absurd (Or.inl (by omega : n < 55296)) h

theorem beq_char_false {c : Char} (d : Char) (h97 : 97 ≤ c.toNat)
    (hd : d.toNat < 97) : (c == d) = false := by
  apply beq_eq_false_iff_ne.mpr
  intro e
  subst e
  omega

theorem beq_char_false_hi {c : Char} (d : Char) (h122 : c.toNat ≤ 122)
    (hd : 122 < d.toNat) : (c == d) = false := by
  apply beq_eq_false_iff_ne.mpr
  intro e
  subst e
  omega

theorem isWsCh_low {c : Char} (h : isAsciiLower c = true) : isWsCh c = false := by
  obtain ⟨h1, -⟩ := lower_bounds h
  unfold isWsCh
  rw [beq_char_false ' ' h1 (by decide), beq_char_false '\t' h1 (by decide),
      beq_char_false '\n' h1 (by decide), beq_char_false '\r' h1 (by decide),
      beq_char_false '\x0b' h1 (by decide), beq_char_false '\x0c' h1 (by decide)]
  rfl

theorem isAsciiLetter_low {c : Char} (h : isAsciiLower c = true) :
    isAsciiLetter c = true := by
  simp [isAsciiLetter, h]

theorem isWordCh_low {c : Char} (h : isAsciiLower c = true) : isWordCh c = true := by
  simp [isWordCh, isAsciiLetter_low h]

theorem isAsciiUpper_low {c : Char} (h : isAsciiLower c = true) :
    isAsciiUpper c = false := by
  obtain ⟨h1, h2⟩ := lower_bounds h
  simp only [isAsciiUpper]
  rw [Bool.and_eq_false_iff]
  right
  rw [decide_eq_false_iff_not]
  omega

theorem lowerCh_low {c : Char} (h : isAsciiLower c = true) : lowerCh c = c := by
  unfold lowerCh
  rw [isAsciiUpper_low h]
  rfl

theorem lowerCh_letter {c : Char} (h : isAsciiLetter c = true) :
    isAsciiLower (lowerCh c) = true := by
  unfold isAsciiLetter at h
  cases hu : isAsciiUpper c with
  | false =>
    rw [hu, Bool.false_or] at h
    rw [lowerCh_low h]; exact h
  | true =>
    have hb : 65 ≤ c.toNat ∧ c.toNat ≤ 90 := by
      simpa [isAsciiUpper, Bool.and_eq_true, decide_eq_true_eq] using hu
    unfold lowerCh
    rw [if_pos hu]
    have ht : (Char.ofNat (c.toNat + 32)).toNat = c.toNat + 32 :=
      char_toNat_ofNat_valid (by omega)
    simp only [isAsciiLower, ht, Bool.and_eq_true, decide_eq_true_eq]
    omega

theorem normQDChar_low {c : Char} (h : isAsciiLower c = true) : normQDChar c = c := by
  obtain ⟨-, h2⟩ := lower_bounds h
  unfold normQDChar
  rw [beq_char_false_hi '‘' h2 (by decide), beq_char_false_hi '’' h2 (by decide),
      beq_char_false_hi '“' h2 (by decide), beq_char_false_hi '”' h2 (by decide),
      beq_char_false_hi '–' h2 (by decide), beq_char_false_hi '—' h2 (by decide),
      beq_char_false_hi '−' h2 (by decide)]
  rfl

theorem band_le_false {n a b : Nat} (h : n < a) : (a ≤ n && n ≤ b) = false := by
  rw [Bool.and_eq_false_iff]
  left
  rw [decide_eq_false_iff_not]
  omega

theorem nat_beq_false {n m : Nat} (h : n ≠ m) : (n == m) = false := by
  simpa using h

theorem nfkdBase_low {c : Char} (h : isAsciiLower c = true) : nfkdBase c = c := by
  obtain ⟨-, h2⟩ := lower_bounds h
  simp only [nfkdBase]
  rw [band_le_false (by omega), nat_beq_false (by omega), band_le_false (by omega),
      band_le_false (by omega), nat_beq_false (by omega), band_le_false (by omega),
      band_le_false (by omega), nat_beq_false (by omega), band_le_false (by omega),
      nat_beq_false (by omega), band_le_false (by omega), band_le_false (by omega),
      nat_beq_false (by omega), band_le_false (by omega), band_le_false (by omega),
      nat_beq_false (by omega), nat_beq_false (by omega)]
  rfl

theorem brktToSpace_low {c : Char} (h : isAsciiLower c = true) : brktToSpace c = c := by
  obtain ⟨h1, h2⟩ := lower_bounds h
  unfold brktToSpace
  rw [beq_char_false '(' h1 (by decide), beq_char_false ')' h1 (by decide),
      beq_char_false '[' h1 (by decide), beq_char_false ']' h1 (by decide),
      beq_char_false_hi '\x7b' h2 (by decide), beq_char_false_hi '\x7d' h2 (by decide),
      beq_char_false '<' h1 (by decide), beq_char_false '>' h1 (by decide)]
  rfl

theorem isApos_low {c : Char} (h : isAsciiLower c = true) : isApos c = false := by
  obtain ⟨h1, h2⟩ := lower_bounds h
  unfold isApos
  rw [beq_char_false '\'' h1 (by decide), beq_char_false_hi '’' h2 (by decide)]
  rfl

theorem und_beq_low {c : Char} (h : isAsciiLower c = true) : (c == '_') = false := by
  obtain ⟨h1, -⟩ := lower_bounds h
  exact beq_char_false '_' h1 (by decide)

/-! ### Generic list identities used by the normalizer lemmas -/

theorem map_id_of_all {f : Char → Char} {cs : List Char}
    (h : ∀ c ∈ cs, f c = c) : cs.map f = cs := by
  induction cs with
  | nil => rfl
  | cons c cs ih =>
    rw [List.map_cons, h c (by simp), ih (fun x hx => h x (by simp [hx]))]

theorem dropWhile_eq_self_of {p : Char → Bool} {cs : List Char}
    (h : ∀ c ∈ cs, p c = false) : cs.dropWhile p = cs := by
  cases cs with
  | nil => rfl
  | cons c cs =>
    exact List.dropWhile_cons_of_neg (by simp [h c (by simp)])

theorem stripWs_eq_self_of {cs : List Char}
    (h : ∀ c ∈ cs, isWsCh c = false) : stripWs cs = cs := by
  unfold stripWs
  rw [dropWhile_eq_self_of h,
      dropWhile_eq_self_of (fun c hc => h c (List.mem_reverse.mp hc)),
      List.reverse_reverse]

/-! ### Stage identities: each normalizer stage fixes an all-lowercase
ASCII key (with the noted exceptions `"and"` and `"etal"`) -/

theorem if_bool_false {α : Sort _} {b : Bool} (h : b = false) (x y : α) :
    (if b then x else y) = y := by rw [h]; rfl

theorem etAlTail_low {r : List Char} (h : ∀ x ∈ r, isAsciiLower x = true)
    (hne : r ≠ ['a', 'l']) : etAlTail r = none := by
  unfold etAlTail
  rw [dropWhile_eq_self_of (fun c hc => isWsCh_low (h c hc))]
  cases r with
  | nil => rfl
  | cons a r1 =>
    cases r1 with
    | nil => rfl
    | cons l r2 =>
      show (if lowerCh a == 'a' && lowerCh l == 'l' then
              match r2 with
              | '.' :: r3 =>
                if bdry '.' r3 then some (false, r3)
                else if bdry 'l' ('.' :: r3) then some (true, '.' :: r3)
                else none
              | _ => if bdry 'l' r2 then some (true, r2) else none
            else none) = none
      by_cases hal : (lowerCh a == 'a' && lowerCh l == 'l') = true
      · rw [if_pos hal]
        have hal' : lowerCh a = 'a' ∧ lowerCh l = 'l' := by simpa using hal
        have ha' : a = 'a' := by
          have := hal'.1; rwa [lowerCh_low (h a (by simp))] at this
        have hl' : l = 'l' := by
          have := hal'.2; rwa [lowerCh_low (h l (by simp))] at this
        cases r2 with
        | nil => exact absurd (by rw [ha', hl']) hne
        | cons x r3 =>
          have hx : isAsciiLower x = true := h x (by simp)
          have hb : bdry 'l' (x :: r3) = false := by
            show (isWordCh 'l' != isWordCh x) = false
            rw [isWordCh_low hx]
            rfl
          split
          · rename_i r3' heq
            exfalso
            have hx' : x = '.' := (List.cons.inj heq).1
            rw [hx'] at hx
            exact absurd hx (by decide)
          · rw [if_bool_false hb]
      · rw [if_neg hal]

theorem matchEtAl_false_low {cs : List Char} (h : ∀ x ∈ cs, isAsciiLower x = true)
    (hne : cs ≠ ['e', 't', 'a', 'l']) : matchEtAl false cs = none := by
  cases cs with
  | nil => rfl
  | cons c1 cs1 =>
    cases cs1 with
    | nil => rfl
    | cons c2 rest =>
      show (if lowerCh c1 == 'e' && lowerCh c2 == 't' then
              match rest with
              | '.' :: r => (etAlTail r).orElse (fun _ => etAlTail rest)
              | _ => etAlTail rest
            else none) = none
      by_cases het : (lowerCh c1 == 'e' && lowerCh c2 == 't') = true
      · rw [if_pos het]
        have het' : lowerCh c1 = 'e' ∧ lowerCh c2 = 't' := by simpa using het
        have he' : c1 = 'e' := by
          have := het'.1; rwa [lowerCh_low (h c1 (by simp))] at this
        have ht' : c2 = 't' := by
          have := het'.2; rwa [lowerCh_low (h c2 (by simp))] at this
        have hrest : ∀ x ∈ rest, isAsciiLower x = true :=
          fun x hx => h x (by simp [hx])
        have hrne : rest ≠ ['a', 'l'] := by
          intro hr
          exact hne (by rw [he', ht', hr])
        split
        · exfalso
          rename_i r heq
          exact absurd (hrest '.' (by simp)) (by decide)
        · exact etAlTail_low hrest hrne
      · rw [if_neg het]

theorem subEtAlAux_true :
    ∀ (fuel : Nat) (cs : List Char), (∀ c ∈ cs, isAsciiLower c = true) →
      cs.length < fuel → subEtAlAux fuel true cs = cs := by
  intro fuel
  induction fuel with
  | zero => intro cs h hf; exact absurd hf (Nat.not_lt_zero _)
  | succ fuel ih =>
    intro cs h hf
    cases cs with
    | nil => rfl
    | cons c cs' =>
      show (match matchEtAl true (c :: cs') with
            | some (w, rest) => subEtAlAux fuel w rest
            | none => c :: subEtAlAux fuel (isWordCh c) cs') = c :: cs'
      rw [show matchEtAl true (c :: cs') = none from rfl]
      rw [isWordCh_low (h c (by simp))]
      rw [ih cs' (fun x hx => h x (by simp [hx]))
          (by simp only [List.length_cons] at hf; omega)]

theorem subEtAl_low {cs : List Char} (h : ∀ c ∈ cs, isAsciiLower c = true)
    (hne : cs ≠ ['e', 't', 'a', 'l']) : subEtAl cs = cs := by
  unfold subEtAl
  cases cs with
  | nil => rfl
  | cons c cs' =>
    show (match matchEtAl false (c :: cs') with
          | some (w, rest) => subEtAlAux ((c :: cs').length) w rest
          | none => c :: subEtAlAux ((c :: cs').length) (isWordCh c) cs') = c :: cs'
    rw [matchEtAl_false_low h hne]
    rw [isWordCh_low (h c (by simp))]
    rw [subEtAlAux_true ((c :: cs').length) cs' (fun x hx => h x (by simp [hx]))
        (by simp)]

theorem matchSepHere_true_low {cs : List Char}
    (h : ∀ x ∈ cs, isAsciiLower x = true) : matchSepHere true cs = false := by
  cases cs with
  | nil => rfl
  | cons c rest =>
    obtain ⟨h1, -⟩ := lower_bounds (h c (by simp))
    show (if c == ',' || c == '&' then true else if true then false else _) = false
    rw [beq_char_false ',' h1 (by decide), beq_char_false '&' h1 (by decide)]
    rfl

theorem matchSepHere_false_low {cs : List Char}
    (h : ∀ x ∈ cs, isAsciiLower x = true) (hne : cs ≠ ['a', 'n', 'd']) :
    matchSepHere false cs = false := by
  cases cs with
  | nil => rfl
  | cons c rest =>
    obtain ⟨h1, -⟩ := lower_bounds (h c (by simp))
    show (if c == ',' || c == '&' then true
          else if false then false
          else match c :: rest with
            | a :: n :: d :: r =>
              lowerCh a == 'a' && lowerCh n == 'n' && lowerCh d == 'd' && bdry 'd' r
            | _ => false) = false
    rw [beq_char_false ',' h1 (by decide), beq_char_false '&' h1 (by decide)]
    cases rest with
    | nil => rfl
    | cons c2 rest2 =>
      cases rest2 with
      | nil => rfl
      | cons c3 rest3 =>
        show (lowerCh c == 'a' && lowerCh c2 == 'n' && lowerCh c3 == 'd' &&
              bdry 'd' rest3) = false
        by_cases habc : (lowerCh c == 'a' && lowerCh c2 == 'n' && lowerCh c3 == 'd') = true
        · have habc' : lowerCh c = 'a' ∧ lowerCh c2 = 'n' ∧ lowerCh c3 = 'd' := by
            simpa [Bool.and_assoc] using habc
          have hc : c = 'a' := by
            have := habc'.1; rwa [lowerCh_low (h c (by simp))] at this
          have hc2 : c2 = 'n' := by
            have := habc'.2.1; rwa [lowerCh_low (h c2 (by simp))] at this
          have hc3 : c3 = 'd' := by
            have := habc'.2.2; rwa [lowerCh_low (h c3 (by simp))] at this
          cases rest3 with
          | nil => exact absurd (by rw [hc, hc2, hc3]) hne
          | cons x rest4 =>
            have hb : bdry 'd' (x :: rest4) = false := by
              show (isWordCh 'd' != isWordCh x) = false
              rw [isWordCh_low (h x (by simp))]
              rfl
            rw [hb, Bool.and_false]
        · rw [Bool.and_eq_false_iff]
          left
          exact Bool.eq_false_iff.mpr habc

theorem splitFirstSep_true_low {cs : List Char}
    (h : ∀ x ∈ cs, isAsciiLower x = true) : splitFirstSep true cs = cs := by
  induction cs with
  | nil => rfl
  | cons c cs' ih =>
    show (if matchSepHere true (c :: cs') then []
          else c :: splitFirstSep (isWordCh c) cs') = c :: cs'
    rw [if_bool_false (matchSepHere_true_low h)]
    rw [isWordCh_low (h c (by simp))]
    rw [ih (fun x hx => h x (by simp [hx]))]

theorem splitFirstSep_false_low {cs : List Char}
    (h : ∀ x ∈ cs, isAsciiLower x = true) (hne : cs ≠ ['a', 'n', 'd']) :
    splitFirstSep false cs = cs := by
  cases cs with
  | nil => rfl
  | cons c cs' =>
    show (if matchSepHere false (c :: cs') then []
          else c :: splitFirstSep (isWordCh c) cs') = c :: cs'
    rw [if_bool_false (matchSepHere_false_low h hne)]
    rw [isWordCh_low (h c (by simp))]
    rw [splitFirstSep_true_low (fun x hx => h x (by simp [hx]))]

theorem subPoss_low :
    ∀ cs : List Char, (∀ x ∈ cs, isAsciiLower x = true) → subPoss cs = cs := by
  intro cs
  induction cs using subPoss.induct with
  | case1 c a s' rest hcond ih =>
    intro h
    exfalso
    have hcond' := hcond
    simp only [Bool.and_eq_true] at hcond'
    exact absurd hcond'.1.1.2 (by simp [isApos_low (h a (by simp))])
  | case2 c a s' rest hcond ih =>
    intro h
    show (if (isAsciiLetter c || c == '-') && isApos a && s' == 's' && bdry 's' rest then
            c :: subPoss rest
          else c :: subPoss (a :: s' :: rest)) = c :: a :: s' :: rest
    rw [if_neg hcond]
    rw [ih (fun x hx => h x (by simp [hx]))]
  | case3 t hshape =>
    intro h
    match t, hshape with
    | [], _ => rfl
    | [x], _ => rfl
    | [x, y], _ => rfl
    | x :: y :: z :: r, hs => exact absurd rfl (by intro he; exact hs x y z r he)

theorem subTrailApos_low {cs : List Char}
    (h : ∀ x ∈ cs, isAsciiLower x = true) : subTrailApos cs = cs := by
  unfold subTrailApos
  cases hr : cs.reverse with
  | nil => rfl
  | cons c rest =>
    have hc : isAsciiLower c = true := h c (by rw [← List.mem_reverse, hr]; simp)
    obtain ⟨h1, h2⟩ := lower_bounds hc
    dsimp only
    rw [if_bool_false (isApos_low hc), if_bool_false (beq_char_false '\n' h1 (by decide))]

theorem splitWsAux_nows {cs : List Char} (h : ∀ x ∈ cs, isWsCh x = false) :
    ∀ cur, splitWsAux cur cs =
      if (cur.reverse ++ cs).isEmpty then [] else [cur.reverse ++ cs] := by
  induction cs with
  | nil =>
    intro cur
    show (if cur.isEmpty then [] else [cur.reverse]) = _
    cases hcur : cur with
    | nil => rfl
    | cons x xs => simp
  | cons c cs' ih =>
    intro cur
    show (if isWsCh c then _ else splitWsAux (c :: cur) cs') = _
    rw [if_bool_false (h c (by simp))]
    rw [ih (fun x hx => h x (by simp [hx])) (c :: cur)]
    simp

theorem splitWsTokens_single {cs : List Char} (h : ∀ x ∈ cs, isWsCh x = false)
    (hne : cs ≠ []) : splitWsTokens cs = [cs] := by
  unfold splitWsTokens
  rw [splitWsAux_nows h []]
  simp [hne]

theorem collapseWs_id :
    ∀ (fuel : Nat) (cs : List Char), (∀ x ∈ cs, isWsCh x = false) →
      cs.length < fuel → collapseWs fuel cs = cs := by
  intro fuel
  induction fuel with
  | zero => intro cs h hf; exact absurd hf (Nat.not_lt_zero _)
  | succ fuel ih =>
    intro cs h hf
    cases cs with
    | nil => rfl
    | cons c cs' =>
      show (if isWsCh c then _ else c :: collapseWs fuel cs') = c :: cs'
      rw [if_bool_false (h c (by simp))]
      rw [ih cs' (fun x hx => h x (by simp [hx]))
          (by simp only [List.length_cons] at hf; omega)]

theorem collapseUnd_id :
    ∀ (fuel : Nat) (cs : List Char), (∀ x ∈ cs, (x == '_') = false) →
      cs.length < fuel → collapseUnd fuel cs = cs := by
  intro fuel
  induction fuel with
  | zero => intro cs h hf; exact absurd hf (Nat.not_lt_zero _)
  | succ fuel ih =>
    intro cs h hf
    cases cs with
    | nil => rfl
    | cons c cs' =>
      show (if c == '_' then _ else c :: collapseUnd fuel cs') = c :: cs'
      rw [if_bool_false (h c (by simp))]
      rw [ih cs' (fun x hx => h x (by simp [hx]))
          (by simp only [List.length_cons] at hf; omega)]

theorem stripUnd_id {cs : List Char} (h : ∀ x ∈ cs, (x == '_') = false) :
    stripUnd cs = cs := by
  unfold stripUnd
  rw [dropWhile_eq_self_of h,
      dropWhile_eq_self_of (fun c hc => h c (List.mem_reverse.mp hc)),
      List.reverse_reverse]

theorem joinKey_single_low {t : List Char} (h : ∀ x ∈ t, isAsciiLower x = true)
    (hne : t ≠ []) : joinKey [t] = t := by
  simp only [joinKey]
  have hemp : t.isEmpty = false := by
    simp [List.isEmpty_iff, hne]
  have hfil : (([t] : List (List Char)).filter (fun t => !t.isEmpty)) = [t] := by
    simp [List.filter, hemp]
  rw [hfil]
  have hmap : ((t.map lowerCh).map (fun c => if c == '-' then '_' else c)) = t := by
    rw [map_id_of_all (fun c hc => lowerCh_low (h c hc))]
    refine map_id_of_all (fun c hc => ?_)
    obtain ⟨h1, -⟩ := lower_bounds (h c hc)
    rw [if_bool_false (beq_char_false '-' h1 (by decide))]
  rw [List.map_cons, List.map_nil, hmap]
  have hug : ∀ x ∈ t, (x == '_') = false := by
    intro x hx
    obtain ⟨h1, -⟩ := lower_bounds (h x hx)
    exact beq_char_false '_' h1 (by decide)
  rw [show joinUnd [t] = t from rfl]
  rw [collapseUnd_id (t.length + 1) t hug (by omega), stripUnd_id hug]

/-! ### Character inventory of normalizer output -/

theorem strip_diacritics_low {cs : List Char}
    (h : ∀ c ∈ cs, isAsciiLower c = true) : _strip_diacritics cs = cs := by
  unfold _strip_diacritics
  rw [map_id_of_all (fun c hc => nfkdBase_low (h c hc))]
  apply List.filter_eq_self.mpr
  intro a ha
  obtain ⟨-, h2⟩ := lower_bounds (h a ha)
  show (!(0x300 ≤ a.toNat && a.toNat ≤ 0x36F)) = true
  rw [band_le_false (by omega)]
  rfl

theorem joinUnd_chars {c : Char} :
    ∀ {ts : List (List Char)}, c ∈ joinUnd ts → c = '_' ∨ ∃ t ∈ ts, c ∈ t := by
  intro ts
  induction ts with
  | nil => intro hc; cases hc
  | cons t ts ih =>
    intro hc
    cases ts with
    | nil => exact Or.inr ⟨t, by simp, hc⟩
    | cons t2 ts2 =>
      rw [show joinUnd (t :: t2 :: ts2) = t ++ '_' :: joinUnd (t2 :: ts2) from rfl] at hc
      rcases List.mem_append.mp hc with h1 | h2
      · exact Or.inr ⟨t, by simp, h1⟩
      · rcases List.mem_cons.mp h2 with h3 | h4
        · exact Or.inl h3
        · rcases ih h4 with h5 | ⟨t', ht', hct'⟩
          · exact Or.inl h5
          · exact Or.inr ⟨t', by simp [ht'], hct'⟩

theorem collapseUnd_chars :
    ∀ (fuel : Nat) (cs : List Char) (c : Char), c ∈ collapseUnd fuel cs →
      c ∈ cs ∨ c = '_' := by
  intro fuel
  induction fuel with
  | zero => intro cs c hc; exact Or.inl hc
  | succ fuel ih =>
    intro cs c hc
    cases cs with
    | nil => cases hc
    | cons x cs' =>
      rw [show collapseUnd (fuel + 1) (x :: cs') =
            (if x == '_' then '_' :: collapseUnd fuel (cs'.dropWhile (· == '_'))
             else x :: collapseUnd fuel cs') from rfl] at hc
      by_cases hx : (x == '_') = true
      · rw [if_pos hx] at hc
        rcases List.mem_cons.mp hc with h1 | h2
        · exact Or.inr h1
        · rcases ih _ c h2 with h3 | h4
          · exact Or.inl (List.mem_cons_of_mem x ((List.dropWhile_sublist _).subset h3))
          · exact Or.inr h4
      · rw [if_neg hx] at hc
        rcases List.mem_cons.mp hc with h1 | h2
        · exact Or.inl (by simp [h1])
        · rcases ih cs' c h2 with h3 | h4
          · exact Or.inl (by simp [h3])
          · exact Or.inr h4

theorem stripUnd_chars {cs : List Char} {c : Char} (hc : c ∈ stripUnd cs) :
    c ∈ cs := by
  unfold stripUnd at hc
  rw [List.mem_reverse] at hc
  have h2 := (List.dropWhile_sublist _).subset hc
  rw [List.mem_reverse] at h2
  exact (List.dropWhile_sublist _).subset h2

theorem joinKey_chars {keyToks : List (List Char)}
    (h : ∀ t ∈ keyToks, ∀ c ∈ t, (isAsciiLetter c || c == '-') = true) :
    ∀ c ∈ joinKey keyToks, isAsciiLower c = true ∨ c = '_' := by
  intro c hc
  simp only [joinKey] at hc
  have hc2 := stripUnd_chars hc
  rcases collapseUnd_chars _ _ _ hc2 with h3 | h4
  · rcases joinUnd_chars h3 with h5 | ⟨t', ht', hct'⟩
    · exact Or.inr h5
    · rcases List.mem_map.mp ht' with ⟨orig, horig, rfl⟩
      rcases List.mem_map.mp hct' with ⟨c1, hc1, rfl⟩
      rcases List.mem_map.mp hc1 with ⟨c0, hc0, rfl⟩
      have horig' : orig ∈ keyToks := List.mem_of_mem_filter horig
      have hch := h orig horig' c0 hc0
      rcases (by simpa using hch : isAsciiLetter c0 = true ∨ (c0 == '-') = true)
          with hl | hd
      · have hlow := lowerCh_letter hl
        have hnd : (lowerCh c0 == '-') = false :=
          beq_char_false '-' (lower_bounds hlow).1 (by decide)
        rw [if_bool_false hnd]
        exact Or.inl hlow
      · have hc0' : c0 = '-' := eq_of_beq hd
        subst hc0'
        exact Or.inr (by decide)
  · exact Or.inr h4

theorem normTokens_chars (x : String) :
    ∀ t ∈ normTokens x, ∀ c ∈ t, (isAsciiLetter c || c == '-') = true := by
  intro t ht c hct
  have ht2 := List.mem_of_mem_filter ht
  rcases List.mem_map.mp ht2 with ⟨orig, -, rfl⟩
  simpa using List.of_mem_filter hct

/-- Every character of a normalized key is a lowercase ASCII letter or
an underscore (the token filter `[^A-Za-z\-]` admits only letters and
hyphens, lowercasing maps them to lowercase letters, and hyphens become
underscores in the joined key). -/
theorem normalize_chars (x : String) :
    ∀ c ∈ (normalize_lead_surname x).data, isAsciiLower c = true ∨ c = '_' := by
  intro c hc
  unfold normalize_lead_surname at hc
  split at hc
  · simp at hc
  · split at hc
    · simp at hc
    · rename_i t0 rest heq
      have htoks : ∀ t ∈ t0 :: rest, ∀ c' ∈ t,
          (isAsciiLetter c' || c' == '-') = true := by
        rw [← heq]
        exact normTokens_chars x
      have ht0 := htoks t0 (by simp)
      refine joinKey_chars ?_ c hc
      intro t ht
      split at ht
      · rcases List.mem_cons.mp ht with rfl | ht'
        · exact ht0
        · cases rest with
          | nil => cases ht'
          | cons t1 rest2 =>
            rcases List.mem_cons.mp ht' with rfl | ht''
            · exact htoks t (by simp)
            · split at ht''
              · rcases List.mem_cons.mp ht'' with rfl | ht3
                · cases rest2 with
                  | nil => intro c' hc'; cases hc'
                  | cons th tt => exact htoks th (by simp)
                · cases ht3
              · cases ht''
      · rcases List.mem_cons.mp ht with rfl | ht'
        · exact ht0
        · cases rest with
          | nil => cases ht'
          | cons t1 rest2 =>
            rcases List.mem_cons.mp ht' with rfl | ht''
            · exact htoks t (by simp)
            · cases ht''

/-! ### The normalizer fixes ordinary lowercase keys -/

theorem normClean_low {cs : List Char} (hlow : ∀ c ∈ cs, isAsciiLower c = true)
    (hetall : cs ≠ ['e', 't', 'a', 'l']) : normClean (String.mk cs) = cs := by
  have hws : ∀ c ∈ cs, isWsCh c = false := fun c h => isWsCh_low (hlow c h)
  simp only [normClean]
  rw [map_id_of_all (fun c h => normQDChar_low (hlow c h))]
  rw [strip_diacritics_low hlow]
  rw [stripWs_eq_self_of hws]
  rw [subEtAl_low hlow hetall]
  rw [map_id_of_all (fun c h => brktToSpace_low (hlow c h))]
  rw [collapseWs_id (cs.length + 1) cs hws (by omega)]
  rw [stripWs_eq_self_of hws]

theorem normTokens_low {cs : List Char} (hlow : ∀ c ∈ cs, isAsciiLower c = true)
    (hne : cs ≠ []) (handl : cs ≠ ['a', 'n', 'd'])
    (hetall : cs ≠ ['e', 't', 'a', 'l']) :
    normTokens (String.mk cs) = [cs] := by
  have hws : ∀ c ∈ cs, isWsCh c = false := fun c h => isWsCh_low (hlow c h)
  unfold normTokens
  rw [normClean_low hlow hetall]
  rw [splitFirstSep_false_low hlow handl]
  rw [stripWs_eq_self_of hws]
  rw [subPoss_low cs hlow]
  rw [subTrailApos_low hlow]
  rw [splitWsTokens_single hws hne]
  rw [List.map_cons, List.map_nil]
  rw [show cs.filter (fun c => isAsciiLetter c || c == '-') = cs from
      List.filter_eq_self.mpr (fun c h => by simp [isAsciiLetter_low (hlow c h)])]
  have hemp : cs.isEmpty = false := by simp [List.isEmpty_iff, hne]
  simp [List.filter, hemp]

/-- An all-lowercase single-token key other than the reserved fragments
`"and"` and `"etal"` is a fixed point of the normalizer. -/
theorem normalize_low_fix {s : String}
    (hlow : ∀ c ∈ s.data, isAsciiLower c = true) (hne : s ≠ "")
    (hand : s ≠ "and") (hetal : s ≠ "etal") :
    normalize_lead_surname s = s := by
  obtain ⟨cs⟩ := s
  have hne' : cs ≠ [] := fun h => hne (by rw [h])
  have handl : cs ≠ ['a', 'n', 'd'] := fun h => hand (by rw [h])
  have hetall : cs ≠ ['e', 't', 'a', 'l'] := fun h => hetal (by rw [h])
  unfold normalize_lead_surname
  rw [if_neg hne]
  rw [normTokens_low hlow hne' handl hetall]
  dsimp only
  rw [ite_self]
  rw [joinKey_single_low hlow hne']

/-! ### Lemmas for the resolver model -/

theorem lexLt_iff (as : List Char) : ∀ bs, lexLt as bs = true ↔ as < bs := by
  induction as with
  | nil =>
    intro bs
    cases bs with
    | nil =>
      simp only [lexLt, Bool.false_eq_true, false_iff]
      exact List.Lex.not_nil_right _ _
    | cons b bs =>
      simp only [lexLt, true_iff]
      exact List.nil_lt_cons b bs
  | cons a as ih =>
    intro bs
    cases bs with
    | nil =>
      simp only [lexLt, Bool.false_eq_true, false_iff]
      exact List.Lex.not_nil_right _ _
    | cons b bs =>
      show (if a < b then true else if b < a then false else lexLt as bs) = true ↔ _
      by_cases hab : a < b
      · rw [if_pos hab]
        simp only [true_iff]
        exact List.Lex.rel hab
      · rw [if_neg hab]
        by_cases hba : b < a
        · rw [if_pos hba]
          simp only [Bool.false_eq_true, false_iff]
          intro h
          cases h with
          | cons h' => exact absurd hba (lt_irrefl a)
          | rel h' => exact hab h'
        · rw [if_neg hba]
          have heq : a = b := le_antisymm (le_of_not_lt hba) (le_of_not_lt hab)
          subst heq
          rw [ih bs]
          exact Iff.symm List.Lex.cons_iff

theorem tbKeyLt_iff (a b : String) : tbKeyLt a b = true ↔ tbKey a < tbKey b := by
  rw [tbKey, tbKey, Prod.Lex.lt_iff]
  simp only [tbKeyLt, Bool.or_eq_true, Bool.and_eq_true, decide_eq_true_eq, beq_iff_eq,
    lexLt_iff, String.lt_iff_toList_lt, String.toList]

theorem tbMinAux_mem (cs : List String) : ∀ best, tbMinAux best cs ∈ best :: cs := by
  induction cs with
  | nil => intro best; simp [tbMinAux]
  | cons c cs ih =>
    intro best
    show tbMinAux (if tbKeyLt c best then c else best) cs ∈ best :: c :: cs
    rcases List.mem_cons.mp (ih (if tbKeyLt c best then c else best)) with h | h
    · rw [h]; split <;> simp
    · simp [h]

theorem tbMinAux_min (cs : List String) :
    ∀ best p, p ∈ best :: cs → tbKey (tbMinAux best cs) ≤ tbKey p := by
  induction cs with
  | nil =>
    intro best p hp
    rcases List.mem_cons.mp hp with h | h
    · rw [h]; exact le_refl _
    · cases h
  | cons c cs ih =>
    intro best p hp
    show tbKey (tbMinAux (if tbKeyLt c best then c else best) cs) ≤ tbKey p
    rcases List.mem_cons.mp hp with h | h
    · rw [h]
      by_cases hc : tbKeyLt c best = true
      · rw [if_pos hc]
        calc tbKey (tbMinAux c cs) ≤ tbKey c := ih c c (by simp)
          _ ≤ tbKey best := le_of_lt ((tbKeyLt_iff c best).mp hc)
      · rw [if_neg hc]
        exact ih best best (by simp)
    · rcases List.mem_cons.mp h with h' | h'
      · rw [h']
        by_cases hc : tbKeyLt c best = true
        · rw [if_pos hc]
          exact ih c c (by simp)
        · rw [if_neg hc]
          have h1 : tbKey (tbMinAux best cs) ≤ tbKey best := ih best best (by simp)
          have h2 : tbKey best ≤ tbKey c := by
            by_contra hlt
            exact hc ((tbKeyLt_iff c best).mpr (lt_of_not_le hlt))
          exact le_trans h1 h2
      · by_cases hc : tbKeyLt c best = true
        · rw [if_pos hc]; exact ih c p (by simp [h'])
        · rw [if_neg hc]; exact ih best p (by simp [h'])

theorem tie_break_mem (sk : String) (y : Int) (c : String) (cs : List String) :
    _tie_break sk y (c :: cs) ∈ c :: cs := by
  simp only [_tie_break]
  split
  · rename_i p hf
    exact List.mem_of_find?_eq_some hf
  · exact tbMinAux_mem cs c

theorem resolveCandidates_from_year (sk : String) (y : Int)
    (index : String × Int → List String) (ct : Option String) :
    ∃ k, resolveCandidates sk y index ct = index (k, y) := by
  simp only [resolveCandidates]
  split
  · split
    · exact ⟨_, rfl⟩
    · exact ⟨sk, rfl⟩
  · exact ⟨sk, rfl⟩

theorem bpiStep_mem (idx : String × Int → List String) (name : String)
    (q : String × Int) (p : String) (h : p ∈ bpiStep idx name q) :
    p ∈ idx q ∨
      (p = name ∧ ∃ g1, basenameMatch name = some (g1, q.2) ∧
        _norm_file_surname g1 = q.1) := by
  unfold bpiStep at h
  revert h
  cases hbm : basenameMatch name with
  | none => exact Or.inl
  | some gy =>
    obtain ⟨g1, y⟩ := gy
    intro h
    simp only at h
    by_cases hq : q = (_norm_file_surname g1, y)
    · subst hq
      rw [if_pos rfl] at h
      rcases List.mem_append.mp h with hold | hnew
      · exact Or.inl hold
      · exact Or.inr ⟨by simpa using hnew, g1, rfl, rfl⟩
    · rw [if_neg hq] at h
      exact Or.inl h

theorem build_pdf_index_mem (files : List String) (q : String × Int) (p : String)
    (h : p ∈ build_pdf_index files q) :
    ∃ g1, basenameMatch p = some (g1, q.2) ∧ _norm_file_surname g1 = q.1 := by
  suffices H : ∀ (idx0 : String × Int → List String),
      (∀ q' p', p' ∈ idx0 q' →
        ∃ g1, basenameMatch p' = some (g1, q'.2) ∧ _norm_file_surname g1 = q'.1) →
      ∀ q' p', p' ∈ files.foldl bpiStep idx0 q' →
        ∃ g1, basenameMatch p' = some (g1, q'.2) ∧ _norm_file_surname g1 = q'.1 by
    exact H (fun _ => []) (by intro q' p' h'; simp at h') q p h
  clear h
  induction files with
  | nil => intro idx0 hinv q' p' h'; exact hinv q' p' h'
  | cons name files ih =>
    intro idx0 hinv q' p' h'
    rw [List.foldl_cons] at h'
    refine ih (bpiStep idx0 name) ?_ q' p' h'
    intro q'' p'' h''
    rcases bpiStep_mem idx0 name q'' p'' h'' with hold | ⟨hp, g1, hbm, hn⟩
    · exact hinv q'' p'' hold
    · exact ⟨g1, by rw [hp]; exact hbm, hn⟩

/-- Claim C4: no cross-year fallback, ever.  Whenever
`resolve_source_pdf` returns a path — via the exact-key lookup or via
the citation-text alternate-key retry — that path comes from a bucket of
the index whose key carries exactly the requested year (first
conjunct, for an arbitrary index); and in every index built by
`build_pdf_index`, the year of a bucket's key is the year parsed from
each member file's name (second conjunct).  Hence the indexed key year
of a returned path never differs from the requested year. -/
theorem resolve_never_crosses_year :
    (∀ (author : String) (year : Int) (index : String × Int → List String)
        (ct : Option String) (p : String),
        (resolve_source_pdf author year index ct).path = some p →
        ∃ k, p ∈ index (k, year)) ∧
    (∀ (files : List String) (k : String) (y : Int) (p : String),
        p ∈ build_pdf_index files (k, y) →
        ∃ g1, basenameMatch p = some (g1, y) ∧ _norm_file_surname g1 = k) := by
  constructor
  · intro author year index ct p h
    simp only [resolve_source_pdf] at h
    split at h
    · simp at h
    · obtain ⟨k, hk⟩ :=
        resolveCandidates_from_year (normalize_lead_surname author) year index ct
      split at h
      · simp at h
      · rename_i p1 heq
        refine ⟨k, ?_⟩
        rw [← hk, heq]
        have hp : p1 = p := by simpa using h
        simp [hp]
      · rename_i p1 q1 rest heq
        refine ⟨k, ?_⟩
        rw [← hk, heq]
        have hmem := tie_break_mem (normalize_lead_surname author) year p1 (q1 :: rest)
        have hco : _tie_break (normalize_lead_surname author) year (p1 :: q1 :: rest) = p := by
          simpa using h
        rwa [hco] at hmem
  · intro files k y p h
    exact build_pdf_index_mem files (k, y) p h

/-- Witness for C4: a one-file index resolves `("Johnson", 1998)` to
`Johnson_1998.pdf`, which indeed sits in a year-1998 bucket; and that
bucket\'s key year is the year parsed from the filename. -/
theorem resolve_never_crosses_year_witness :
    (∃ k, "Johnson_1998.pdf" ∈
      build_pdf_index ["Johnson_1998.pdf"] (k, 1998)) ∧
    (∃ g1, basenameMatch "Johnson_1998.pdf" = some (g1, 1998) ∧
      _norm_file_surname g1 = "johnson") :=
  ⟨resolve_never_crosses_year.1 "Johnson" 1998
      (build_pdf_index ["Johnson_1998.pdf"]) none "Johnson_1998.pdf" (by decide),
   resolve_never_crosses_year.2 ["Johnson_1998.pdf"] "johnson" 1998
      "Johnson_1998.pdf" (by decide)⟩

/-- Counterexample for C8: with no literal `x_2000.pdf` present and two
equal-length candidates, `_tie_break` does not pick the lexicographically
smallest basename: it picks `"a_2000a.pdf"` although
`"B_2000b.pdf" < "a_2000a.pdf"` (uppercase code points sort first), because
the source sorts by the lowercased basename. -/
theorem tie_break_not_plain_lexicographic :
    _tie_break "x" 2000 ["B_2000b.pdf", "a_2000a.pdf"] = "a_2000a.pdf" ∧
    ("B_2000b.pdf" : String) < ("a_2000a.pdf" : String) ∧
    ("B_2000b.pdf" : String).length = ("a_2000a.pdf" : String).length ∧
    (["B_2000b.pdf", "a_2000a.pdf"].find?
      (fun p => lowerStr p == lowerStr ("x" ++ "_" ++ toString (2000 : Int) ++ ".pdf"))) = none := by
  refine ⟨by decide, ?_, by decide, by decide⟩
  rw [String.lt_iff_toList_lt]
  decide

/-- Claim C8 as amended: on more than one candidate, `_tie_break` is a
deterministic function of its arguments that returns a candidate; it
prefers (case-insensitively) the literal `<surname_key>_<year>.pdf` over
any suffixed variant; otherwise it selects a candidate with the shortest
basename, breaking remaining ties by the lexicographically smallest
**lowercased** basename (not the raw basename — see the counterexample;
among candidates equal up to case the earliest in list order wins). -/
theorem tie_break_deterministic_choice (surname_key : String) (year : Int)
    (candidates : List String) (hlen : 1 < candidates.length) :
    _tie_break surname_key year candidates ∈ candidates ∧
    ((∃ p ∈ candidates,
        lowerStr p = lowerStr (surname_key ++ "_" ++ toString year ++ ".pdf")) →
      lowerStr (_tie_break surname_key year candidates) =
        lowerStr (surname_key ++ "_" ++ toString year ++ ".pdf")) ∧
    ((∀ p ∈ candidates,
        lowerStr p ≠ lowerStr (surname_key ++ "_" ++ toString year ++ ".pdf")) →
      ∀ p ∈ candidates,
        (_tie_break surname_key year candidates).length < p.length ∨
        ((_tie_break surname_key year candidates).length = p.length ∧
          lowerStr (_tie_break surname_key year candidates) ≤ lowerStr p)) := by
  cases candidates with
  | nil => simp at hlen
  | cons c cs =>
    refine ⟨tie_break_mem surname_key year c cs, ?_, ?_⟩
    · rintro ⟨p, hp, hpl⟩
      simp only [_tie_break]
      split
      · rename_i q hf
        have hq := List.find?_some hf
        exact eq_of_beq hq
      · rename_i hf
        have hh := List.find?_eq_none.mp hf p hp
        exact absurd (beq_iff_eq.mpr hpl) (by simpa using hh)
    · intro hno p hp
      simp only [_tie_break]
      split
      · rename_i q hf
        have hq := List.find?_some hf
        exact absurd (eq_of_beq hq) (hno q (List.mem_of_find?_eq_some hf))
      · have hle := tbMinAux_min cs c p hp
        rw [tbKey, tbKey, Prod.Lex.le_iff] at hle
        exact hle

/-- Witness for C8: four same-key candidates; the literal
`smith_2010.pdf` is preferred case-insensitively (`SMITH_2010.pdf`). -/
theorem tie_break_deterministic_choice_witness :
    1 < (["Smith_2010_v2.pdf", "SMITH_2010.pdf", "Smith_2010_x.pdf"] : List String).length ∧
    _tie_break "smith" 2010 ["Smith_2010_v2.pdf", "SMITH_2010.pdf", "Smith_2010_x.pdf"] ∈
      (["Smith_2010_v2.pdf", "SMITH_2010.pdf", "Smith_2010_x.pdf"] : List String) ∧
    lowerStr (_tie_break "smith" 2010
        ["Smith_2010_v2.pdf", "SMITH_2010.pdf", "Smith_2010_x.pdf"]) =
      lowerStr ("smith" ++ "_" ++ toString (2010 : Int) ++ ".pdf") :=
  ⟨by decide,
   (tie_break_deterministic_choice "smith" 2010 _ (by decide)).1,
   (tie_break_deterministic_choice "smith" 2010 _ (by decide)).2.1
     ⟨"SMITH_2010.pdf", by decide, by decide⟩⟩


/-- Counterexample for C5: `normalize_lead_surname` is not idempotent.
The repository's own test input `"Ripoll Lorenzo"` normalizes to the
two-token key `"ripoll_lorenzo"`; renormalizing that key strips the
underscore (the token filter `[^A-Za-z\-]` deletes it), giving
`"ripolllorenzo"`. -/
theorem normalize_not_idempotent :
    normalize_lead_surname "Ripoll Lorenzo" = "ripoll_lorenzo" ∧
    normalize_lead_surname "ripoll_lorenzo" = "ripolllorenzo" ∧
    normalize_lead_surname (normalize_lead_surname "Ripoll Lorenzo") ≠
      normalize_lead_surname "Ripoll Lorenzo" :=
  ⟨by decide, by decide, by decide⟩

/-- Claim C5 as amended: `normalize_lead_surname` is total (it is a Lean
function) and `normalize_lead_surname "" = ""`, but it is idempotent
only on inputs whose key contains no underscore (single-token keys) and
is not one of the reserved fragments `"and"` / `"etal"` (which the
separator split and the `et al.` removal erase); multi-token keys such
as `normalize_lead_surname "Ripoll Lorenzo" = "ripoll_lorenzo"` are not
fixed points (see the counterexample). -/
theorem normalize_total_empty_restricted_idem :
    normalize_lead_surname "" = "" ∧
    ∀ x : String,
      (∀ c ∈ (normalize_lead_surname x).data, c ≠ '_') →
      normalize_lead_surname x ≠ "and" →
      normalize_lead_surname x ≠ "etal" →
      normalize_lead_surname (normalize_lead_surname x) =
        normalize_lead_surname x := by
  refine ⟨rfl, ?_⟩
  intro x hund hand hetal
  by_cases hemp : normalize_lead_surname x = ""
  · rw [hemp]; rfl
  · refine normalize_low_fix ?_ hemp hand hetal
    intro c hc
    rcases normalize_chars x c hc with h | h
    · exact h
    · exact absurd h (hund c hc)

/-- Witness for C5 (amended): the single-token key of `"Smith"` is an
underscore-free fixed point. -/
theorem normalize_total_empty_restricted_idem_witness :
    (∀ c ∈ (normalize_lead_surname "Smith").data, c ≠ '_') ∧
    normalize_lead_surname "Smith" ≠ "and" ∧
    normalize_lead_surname "Smith" ≠ "etal" ∧
    normalize_lead_surname (normalize_lead_surname "Smith") =
      normalize_lead_surname "Smith" :=
  ⟨by decide, by decide, by decide,
   normalize_total_empty_restricted_idem.2 "Smith" (by decide) (by decide)
     (by decide)⟩


/-! ### Lemmas for the citation parser -/

theorem dedupCitAux_subset {c : Citation} :
    ∀ (l : List Citation) (seen), c ∈ dedupCitAux seen l → c ∈ l := by
  intro l
  induction l with
  | nil => intro seen hc; cases hc
  | cons x xs ih =>
    intro seen hc
    revert hc
    show c ∈ (if citKey x ∈ seen then dedupCitAux seen xs
              else x :: dedupCitAux (citKey x :: seen) xs) → _
    intro hc
    split at hc
    · exact List.mem_cons_of_mem _ (ih seen hc)
    · rcases List.mem_cons.mp hc with rfl | h2
      · simp
      · exact List.mem_cons_of_mem _ (ih _ h2)

theorem dedupCitAux_key_mem {x : Citation} :
    ∀ (l : List Citation) (seen), x ∈ l →
      citKey x ∈ seen ∨ ∃ c ∈ dedupCitAux seen l, citKey c = citKey x := by
  intro l
  induction l with
  | nil => intro seen hx; cases hx
  | cons h t ih =>
    intro seen hx
    rcases List.mem_cons.mp hx with rfl | hx'
    · by_cases hk : citKey x ∈ seen
      · exact Or.inl hk
      · right
        refine ⟨x, ?_, rfl⟩
        show x ∈ (if citKey x ∈ seen then dedupCitAux seen t
                  else x :: dedupCitAux (citKey x :: seen) t)
        rw [if_neg hk]
        simp
    · by_cases hk : citKey h ∈ seen
      · rcases ih seen hx' with h1 | ⟨c, hc, hkey⟩
        · exact Or.inl h1
        · right
          refine ⟨c, ?_, hkey⟩
          show c ∈ (if citKey h ∈ seen then dedupCitAux seen t
                    else h :: dedupCitAux (citKey h :: seen) t)
          rw [if_pos hk]
          exact hc
      · rcases ih (citKey h :: seen) hx' with h1 | ⟨c, hc, hkey⟩
        · rcases List.mem_cons.mp h1 with heq | h2
          · right
            refine ⟨h, ?_, heq.symm⟩
            show h ∈ (if citKey h ∈ seen then dedupCitAux seen t
                      else h :: dedupCitAux (citKey h :: seen) t)
            rw [if_neg hk]
            simp
          · exact Or.inl h2
        · right
          refine ⟨c, ?_, hkey⟩
          show c ∈ (if citKey h ∈ seen then dedupCitAux seen t
                    else h :: dedupCitAux (citKey h :: seen) t)
          rw [if_neg hk]
          exact List.mem_cons_of_mem _ hc

theorem mkNarr_type (cs : List Char) (m : Nat × Nat × Nat × List Char) :
    (mkNarr cs m).citation_type = "secondary_narrative" ∨
    (mkNarr cs m).citation_type = "narrative" := by
  simp only [mkNarr]
  split <;> simp

theorem mkParen_shape {block : List Char} {span : Nat × Nat} {c : Citation}
    (hc : c ∈ mkParen block span)
    (hty : c.citation_type = "secondary_parenthetical") :
    c.primary_mentioned_author = none ∧ c.primary_mentioned_year = none ∧
      c.is_secondary = true := by
  revert hc
  unfold mkParen
  cases hac : asCitedSearch block with
  | some g =>
    obtain ⟨g0, a, y⟩ := g
    intro hc
    have := List.mem_singleton.mp hc
    subst this
    exact ⟨rfl, rfl, rfl⟩
  | none =>
    intro hc
    rcases List.mem_map.mp hc with ⟨ay, -, rfl⟩
    exact absurd hty (show ("parenthetical" : String) ≠ _ by decide)

/-- Any record of the combined (pre-dedup) list typed
`secondary_parenthetical` carries no primary-mentioned fields and is
secondary. -/
theorem secondary_paren_shape {s : String} {c : Citation}
    (hc : c ∈ _extract_parenthetical_pairs s ++ _extract_narrative_pairs s)
    (hty : c.citation_type = "secondary_parenthetical") :
    c.primary_mentioned_author = none ∧ c.primary_mentioned_year = none ∧
      c.is_secondary = true := by
  rcases List.mem_append.mp hc with h1 | h2
  · rcases List.mem_flatMap.mp h1 with ⟨bs, -, hcm⟩
    exact mkParen_shape hcm hty
  · rcases List.mem_map.mp h2 with ⟨m, -, rfl⟩
    rcases mkNarr_type s.data m with h | h <;> rw [h] at hty <;>
      exact absurd hty (by decide)

/-- Counterexample for C6: in
`"(Smith, 2000, as cited in Jones, 2010)"` the `as cited in` pattern is
preceded by the pair `(Smith, 2000)`, yet the emitted
`secondary_parenthetical` citation has `primary_mentioned_author =
primary_mentioned_year = None` — the preceding pair is not captured
(the source hard-codes `None` for both fields). -/
theorem parse_secondary_paren_drops_primary :
    (parse_citations "(Smith, 2000, as cited in Jones, 2010)").map
        (fun c => (c.citation_type, c.author, c.year,
          c.primary_mentioned_author, c.primary_mentioned_year)) =
      [("secondary_parenthetical", "Jones", "2010", none, none)] ∧
    ¬ ∃ c ∈ parse_citations "(Smith, 2000, as cited in Jones, 2010)",
        c.primary_mentioned_author = some "Smith" ∧
        c.primary_mentioned_year = some "2000" :=
  ⟨by decide, by decide⟩

/-- Claim C6 as amended: for every sentence and every balanced
parenthetical block in which the `as cited in SURNAME, YEAR` pattern
matches (whether or not an (author, year) pair precedes it),
`parse_citations` emits a `secondary_parenthetical` citation whose
author and year are the host's — but whose `primary_mentioned_author`
and `primary_mentioned_year` are always `None`: the preceding pair is
not captured (only `secondary_narrative` captures a primary pair). -/
theorem parse_secondary_paren_amended (s : String) (b : List Char)
    (sp : Nat × Nat) (g0 a y : List Char)
    (hb : (b, sp) ∈ parenBlocks s.data)
    (hac : asCitedSearch b = some (g0, a, y)) :
    ∃ c ∈ parse_citations s,
      c.citation_type = "secondary_parenthetical" ∧
      c.author = String.mk (stripWs a) ∧
      c.year = String.mk (stripWs y) ∧
      c.span = sp ∧
      c.is_secondary = true ∧
      c.primary_mentioned_author = none ∧
      c.primary_mentioned_year = none := by
  have hrmem : ∃ r ∈ mkParen b sp,
      citKey r = (String.mk (stripWs a), String.mk (stripWs y),
        "secondary_parenthetical", sp) := by
    unfold mkParen
    rw [hac]
    exact ⟨_, List.Mem.head _, rfl⟩
  obtain ⟨r, hr, hkey⟩ := hrmem
  have hrp : r ∈ _extract_parenthetical_pairs s :=
    List.mem_flatMap.mpr ⟨(b, sp), hb, hr⟩
  have hrall : r ∈ _extract_parenthetical_pairs s ++ _extract_narrative_pairs s :=
    List.mem_append.mpr (Or.inl hrp)
  rcases dedupCitAux_key_mem _ [] hrall with h1 | ⟨c, hc, hck⟩
  · cases h1
  · refine ⟨c, hc, ?_⟩
    rw [hkey] at hck
    have hty : c.citation_type = "secondary_parenthetical" := by
      have := congrArg (fun q => q.2.2.1) hck
      simpa [citKey] using this
    have hau : c.author = String.mk (stripWs a) := by
      have := congrArg (fun q => q.1) hck
      simpa [citKey] using this
    have hyr : c.year = String.mk (stripWs y) := by
      have := congrArg (fun q => q.2.1) hck
      simpa [citKey] using this
    have hsp : c.span = sp := by
      have := congrArg (fun q => q.2.2.2) hck
      simpa [citKey] using this
    obtain ⟨hpa, hpy, hsec⟩ :=
      secondary_paren_shape (dedupCitAux_subset _ [] hc) hty
    exact ⟨hty, hau, hyr, hsp, hsec, hpa, hpy⟩

/-- Witness for C6 (amended): the block of the counterexample sentence,
instantiated concretely. -/
theorem parse_secondary_paren_amended_witness :
    (("Smith, 2000, as cited in Jones, 2010".data, ((0, 38) : Nat × Nat)) ∈
      parenBlocks ("(Smith, 2000, as cited in Jones, 2010)" : String).data) ∧
    asCitedSearch "Smith, 2000, as cited in Jones, 2010".data =
      some ("as cited in Jones, 2010".data, "Jones".data, "2010".data) ∧
    ∃ c ∈ parse_citations "(Smith, 2000, as cited in Jones, 2010)",
      c.citation_type = "secondary_parenthetical" ∧
      c.author = String.mk (stripWs "Jones".data) ∧
      c.year = String.mk (stripWs "2010".data) ∧
      c.span = (0, 38) ∧
      c.is_secondary = true ∧
      c.primary_mentioned_author = none ∧
      c.primary_mentioned_year = none :=
  ⟨by decide, by decide,
   parse_secondary_paren_amended "(Smith, 2000, as cited in Jones, 2010)"
     "Smith, 2000, as cited in Jones, 2010".data (0, 38)
     "as cited in Jones, 2010".data "Jones".data "2010".data
     (by decide) (by decide)⟩


/-! ### Lemmas for the retrieval model -/

/-- `add_page_chunks` never records the same window index twice: an
index is appended to `used_idx` only after the `idx in used_idx` guard
fails. -/
theorem addPageChunksAux_nodup (targets : List Int) (ma : Nat) :
    ∀ (l : List Chunk) (idx added : Nat) (cand : List Ev) (used : List Nat),
      used.Nodup → (addPageChunksAux targets ma l idx added (cand, used)).2.Nodup := by
  intro l
  induction l with
  | nil => intro idx added cand used h; exact h
  | cons ch rest ih =>
    intro idx added cand used h
    simp only [addPageChunksAux]
    by_cases h1 : used.contains idx
    · rw [if_pos h1]
      exact ih _ _ _ _ h
    · rw [if_neg h1]
      have hni : idx ∉ used := by simpa using (Bool.of_not_eq_true h1)
      have h2 : (used ++ [idx]).Nodup := by simp [List.nodup_append, h, hni]
      split
      · split
        · exact h2
        · exact ih _ _ _ _ h2
      · exact ih _ _ _ _ h

/-- The `used_idx` set built by stages 1–2 has no duplicate index. -/
theorem assembleStage12_nodup (pages : List (Int × String)) (offset : Option Int)
    (row : ClaimRow) (chunks : List Chunk) (topk : Nat) :
    (assembleStage12 pages offset row chunks topk).2.Nodup := by
  unfold assembleStage12
  have hst1 : ∀ st1 : List Ev × List Nat, st1.2.Nodup →
      (match (if String.mk (stripWs row.stated_page.data) = "" then none
              else firstDigitRun (String.mk (stripWs row.stated_page.data)).data),
            offset with
        | some ds, some off =>
          if pages.any (fun pp => pp.1 == (digitsToNat ds : Int) - off) then
            addPageChunks chunks [(digitsToNat ds : Int) - off]
              (max 1 (topk - st1.1.length)) st1
          else st1
        | _, _ => st1).2.Nodup := by
    intro st1 h1
    split
    · split
      · obtain ⟨c1, u1⟩ := st1
        exact addPageChunksAux_nodup _ _ _ _ _ _ _ h1
      · exact h1
    · exact h1
  apply hst1
  split
  · dsimp only
    split
    · exact List.nodup_nil
    · exact addPageChunksAux_nodup _ _ _ _ _ _ _ List.nodup_nil
  · exact List.nodup_nil

/-- Counterexample for C7: one page `"hello world"`, one window; the
claim row states page 1, the calibrated offset is 0 and `top_k = 2`.
The offset strategy adds the only window; the fuzzy fallback then
ranks ALL windows (it is handed the full chunk list, with no
`used_idx` exclusion) and re-adds the very same window, so the
evidence list contains a duplicate. -/
theorem assemble_duplicate_window :
    (assembleEvidence [((1 : Int), "hello world")] (some 0)
        ⟨"", "hello", "1"⟩ 180 90 2).map (fun e => (e.page_range, e.text)) =
      [("1", "hello world"), ("1", "hello world")] ∧
    ¬ ((assembleEvidence [((1 : Int), "hello world")] (some 0)
        ⟨"", "hello", "1"⟩ 180 90 2).map (fun e => (e.page_range, e.text))).Nodup :=
  ⟨by decide, by decide⟩

/-- Claim C7 as amended: the evidence list is truncated with
`[:top_k]`, so it never exceeds `top_k` items, and the anchor/offset
stages (1–2) by themselves never add the same window twice (their
`used_idx` bookkeeping is duplicate-free) — but the fuzzy fallback
receives the full window list and can re-add a window stages 1–2
already added, so the whole list may contain duplicates. -/
theorem assemble_at_most_topk_stage12_nodup (pages : List (Int × String))
    (offset : Option Int) (row : ClaimRow) (cw stride topk : Nat)
    (chunks : List Chunk) :
    (assembleEvidence pages offset row cw stride topk).length ≤ topk ∧
    (assembleStage12 pages offset row chunks topk).2.Nodup := by
  constructor
  · exact List.length_take_le _ _
  · exact assembleStage12_nodup pages offset row chunks topk

/-- Claim C9: `top_k_chunks_for_claim` fails (Python: raises
`ValueError`) exactly when `k ≤ 0`; for `k ≥ 1` it returns normally on
every window list `chunk_pages_to_windows` can produce, and an empty
chunk list yields `ok []`, not an error. -/
theorem top_k_valueerror_iff (claim : String) (pages : List (Int × String))
    (cw stride : Nat) (cp : Bool) (k : Int) :
    ((top_k_chunks_for_claim claim (chunk_pages_to_windows pages cw stride cp) k =
        Except.error "k must be positive") ↔ k ≤ 0) ∧
    ((∃ res, top_k_chunks_for_claim claim (chunk_pages_to_windows pages cw stride cp) k =
        Except.ok res) ↔ 0 < k) ∧
    ((top_k_chunks_for_claim claim ([] : List Chunk) k = Except.ok []) ↔ 0 < k) := by
  unfold top_k_chunks_for_claim
  by_cases hk : k ≤ 0
  · simp only [if_pos hk]
    refine ⟨⟨fun _ => hk, fun _ => trivial⟩, ?_, ?_⟩
    · constructor
      · rintro ⟨res, hres⟩
        exact Except.noConfusion hres
      · intro h; omega
    · constructor
      · intro h
        exact Except.noConfusion h
      · intro h; omega
  · simp only [if_neg hk]
    refine ⟨⟨fun h => Except.noConfusion h, fun h => absurd h hk⟩,
      ⟨fun _ => by omega, fun _ => ⟨_, rfl⟩⟩,
      ⟨fun _ => by omega, fun _ => by simp [processExtract, List.take_nil]⟩⟩

/-! ### Lemmas for the section-scoring model -/

theorem heading_penalty_pos (t : String) : 0 < heading_penalty_factor t := by
  unfold heading_penalty_factor
  split_ifs <;> norm_num

theorem level_boost_pos (lv : Int) : 0 < level_boost lv := by
  unfold level_boost
  split_ifs <;> norm_num

/-- The main loop either leaves its state untouched or ends holding
some visited section's title. -/
theorem bestLoop_cases (sq : ℚ → ℚ) (cv idf : List (String × ℚ)) :
    ∀ (l : List (CitationAudit.Section × List (String × ℚ)))
      (st : ℚ × (String × String × Option Int)),
      bestLoop sq cv idf l st = st ∨
        ∃ p ∈ l, (bestLoop sq cv idf l st).2.1 = p.1.title := by
  intro l
  induction l with
  | nil => intro st; exact Or.inl rfl
  | cons hd rest ih =>
    intro st
    obtain ⟨s, tfd⟩ := hd
    obtain ⟨bs, best⟩ := st
    simp only [bestLoop]
    split
    · rcases ih (cosine sq cv (apply_idf tfd idf) * heading_penalty_factor s.title *
          level_boost s.level, (s.title, s.title, levelField s.level)) with h | ⟨p, hp, hq⟩
      · right
        exact ⟨(s, tfd), List.mem_cons_self _ _, by rw [h]⟩
      · right
        exact ⟨p, List.mem_cons_of_mem _ hp, hq⟩
    · rcases ih (bs, best) with h | ⟨p, hp, hq⟩
      · exact Or.inl h
      · right
        exact ⟨p, List.mem_cons_of_mem _ hp, hq⟩

/-- Same statement for the fallback loop. -/
theorem fallbackLoop_cases (ct : List String) :
    ∀ (l : List CitationAudit.Section) (st : ℚ × (String × String × Option Int)),
      fallbackLoop ct l st = st ∨
        ∃ s ∈ l, (fallbackLoop ct l st).2.1 = s.title := by
  intro l
  induction l with
  | nil => intro st; exact Or.inl rfl
  | cons s rest ih =>
    intro st
    obtain ⟨bs, best⟩ := st
    simp only [fallbackLoop]
    split
    · rcases ih ((overlapCount ct s.title : ℚ) * heading_penalty_factor s.title *
          level_boost s.level, (s.title, s.title, levelField s.level)) with h | ⟨p, hp, hq⟩
      · right
        exact ⟨s, List.mem_cons_self _ _, by rw [h]⟩
      · right
        exact ⟨p, List.mem_cons_of_mem _ hp, hq⟩
    · rcases ih (bs, best) with h | ⟨p, hp, hq⟩
      · exact Or.inl h
      · right
        exact ⟨p, List.mem_cons_of_mem _ hp, hq⟩

/-- Started at `best2_score = -1`, the fallback's first iteration
always updates (its score is a product of non-negatives), so the
result names a section title as soon as the list is non-empty. -/
theorem fallbackLoop_ne_nil (ct : List String) (s0 : CitationAudit.Section)
    (rest : List CitationAudit.Section) (best : String × String × Option Int) :
    ∃ s ∈ s0 :: rest, (fallbackLoop ct (s0 :: rest) (-1, best)).2.1 = s.title := by
  have hpos : (-1 : ℚ) < (overlapCount ct s0.title : ℚ) *
      heading_penalty_factor s0.title * level_boost s0.level := by
    have h1 : (0 : ℚ) ≤ (overlapCount ct s0.title : ℚ) *
        heading_penalty_factor s0.title * level_boost s0.level :=
      mul_nonneg (mul_nonneg (Nat.cast_nonneg _) (le_of_lt (heading_penalty_pos _)))
        (le_of_lt (level_boost_pos _))
    linarith
  simp only [fallbackLoop, if_pos hpos]
  rcases fallbackLoop_cases ct rest ((overlapCount ct s0.title : ℚ) *
      heading_penalty_factor s0.title * level_boost s0.level,
      (s0.title, s0.title, levelField s0.level)) with h | ⟨p, hp, hq⟩
  · exact ⟨s0, List.mem_cons_self _ _, by rw [h]⟩
  · exact ⟨p, List.mem_cons_of_mem _ hp, hq⟩

/-- Claim C10: for every non-empty section list and every claim text
(no shared vocabulary and the empty claim included, for arbitrary
models `sq`, `lg` of `math.sqrt`, `math.log`),
`best_section_for_claim` returns the title of one of the given
sections; the `"unknown"` sentinel can only survive when the section
list is empty. -/
theorem best_section_title_mem (sq lg : ℚ → ℚ) (claim_text : String)
    (sections : List CitationAudit.Section) (hne : sections ≠ []) :
    ∃ s ∈ sections, (best_section_for_claim sq lg claim_text sections).1 = s.title := by
  obtain ⟨s0, rest, rfl⟩ := List.exists_cons_of_ne_nil hne
  unfold best_section_for_claim
  dsimp only
  split
  · exact fallbackLoop_ne_nil _ s0 rest _
  · rename_i hgt
    rcases bestLoop_cases sq (apply_idf (tf (tokens claim_text))
        (build_tfidf lg ((s0 :: rest).map (fun s => tokens s.body))).2)
        (build_tfidf lg ((s0 :: rest).map (fun s => tokens s.body))).2
        ((s0 :: rest).zip (build_tfidf lg ((s0 :: rest).map (fun s => tokens s.body))).1)
        (-1, ("unknown", "unknown", none)) with h | ⟨p, hp, hq⟩
    · rw [h] at hgt
      norm_num at hgt
    · exact ⟨p.1, (List.of_mem_zip hp).1, hq⟩

/-- Witness for C10: a single concrete section, hypotheses discharged
at `sq = lg = id`. -/
theorem best_section_title_mem_witness :
    ([(⟨"Methods", "alpha beta", 2⟩ : CitationAudit.Section)] ≠ []) ∧
    ∃ s ∈ [(⟨"Methods", "alpha beta", 2⟩ : CitationAudit.Section)],
      (best_section_for_claim id id "alpha"
        [(⟨"Methods", "alpha beta", 2⟩ : CitationAudit.Section)]).1 = s.title :=
  ⟨by decide,
   best_section_title_mem id id "alpha"
     [(⟨"Methods", "alpha beta", 2⟩ : CitationAudit.Section)] (by decide)⟩

end CitationAudit